import Mathlib

/-!
# Verification development for `lucasepe/request`

A shallow embedding of the request-assembly and execution pipeline
(`request.go`, `reply/reply.go`, `reply_validators.go`, `body/body.go`),
together with the parts of the Go standard library the pipeline calls
(`net/url`, `io`, `net/http.NewRequestWithContext`).

Go strings are byte sequences; they are embedded as `List Char`, one `Char`
per byte, so that ASCII text denotes itself.
-/

set_option autoImplicit false

namespace RequestLib

/-- Go `string` (and `[]byte`): a sequence of bytes, one `Char` per byte. -/
abbrev Str := List Char

/-- Go `error` values that occur in the pipeline. `external` stands for any
error value produced by a collaborator (transport, codec, template expander,
body provider, response stream). -/
inductive GoError where
  | EOF
  | urlParse (url : Str) (reason : Str)
  | invalidMethod (method : Str)
  | nilContext
  | unexpectedStatus (code : Int)
  | external (tag : Nat)
  deriving DecidableEq, Repr

/-! ## package `strings` -/

namespace strings

/-- Go `strings.Cut(s, sep)` for a one-byte separator. -/
def Cut (sep : Char) : Str → Str × Str × Bool
  | [] => ([], [], false)
  | c :: cs =>
    if c = sep then ([], cs, true)
    else
      let r := Cut sep cs
      (c :: r.1, r.2.1, r.2.2)

/-- Go `strings.HasPrefix`. -/
def HasPrefix (s pre : Str) : Bool := pre.isPrefixOf s

/-- Go `strings.HasSuffix`. -/
def HasSuffix (s suf : Str) : Bool := suf.isSuffixOf s

/-- Go `strings.Count(s, sep)` for a one-byte separator. -/
def Count (sep : Char) (s : Str) : Nat := s.count sep

/-- Go `strings.Contains(s, sep)` for a one-byte separator. -/
def Contains (sep : Char) (s : Str) : Bool := s.contains sep

/-- Go `strings.IndexByte`; `none` stands for `-1`. -/
def IndexByte (sep : Char) : Str → Option Nat
  | [] => none
  | c :: cs => if c = sep then some 0 else (IndexByte sep cs).map (· + 1)

/-- Go `strings.LastIndexByte`; `none` stands for `-1`. -/
def LastIndexByte (sep : Char) : Str → Option Nat
  | [] => none
  | c :: cs =>
    match LastIndexByte sep cs with
    | some i => some (i + 1)
    | none => if c = sep then some 0 else none

/-- Go `strings.Index(s, sub)`; `none` stands for `-1`. -/
def Index (sub : Str) : Str → Option Nat
  | [] => if sub = [] then some 0 else none
  | c :: cs =>
    if sub.isPrefixOf (c :: cs) then some 0 else (Index sub cs).map (· + 1)

/-- Go `strings.ToLower` on ASCII text. -/
def ToLower (s : Str) : Str :=
  s.map fun c => if 'A' ≤ c ∧ c ≤ 'Z' then Char.ofNat (c.toNat + 32) else c

/-- Go `strings.TrimSuffix` for a one-byte suffix. -/
def TrimSuffix (s : Str) (suf : Char) : Str :=
  if s.getLast? = some suf then s.dropLast else s

end strings

/-! ## package `net/url` -/

namespace url

/-- The `encoding` modes of `net/url`. -/
inductive Encoding where
  | encodePath
  | encodePathSegment
  | encodeHost
  | encodeZone
  | encodeUserPassword
  | encodeQueryComponent
  | encodeFragment
  deriving DecidableEq, Repr

open Encoding

/-- Go `url.Userinfo`. -/
structure Userinfo where
  username : Str
  password : Str
  passwordSet : Bool
  deriving DecidableEq, Repr

/-- Go `url.URL`. -/
structure URL where
  Scheme : Str := []
  Opaque : Str := []
  User : Option Userinfo := none
  Host : Str := []
  Path : Str := []
  RawPath : Str := []
  OmitHost : Bool := false
  ForceQuery : Bool := false
  RawQuery : Str := []
  Fragment : Str := []
  RawFragment : Str := []
  deriving DecidableEq, Repr

def isAlpha (c : Char) : Bool := ('a' ≤ c ∧ c ≤ 'z') ∨ ('A' ≤ c ∧ c ≤ 'Z')

def isDigit (c : Char) : Bool := '0' ≤ c ∧ c ≤ '9'

def ishex (c : Char) : Bool :=
  ('0' ≤ c ∧ c ≤ '9') ∨ ('a' ≤ c ∧ c ≤ 'f') ∨ ('A' ≤ c ∧ c ≤ 'F')

def unhex (c : Char) : Nat :=
  if '0' ≤ c ∧ c ≤ '9' then c.toNat - '0'.toNat
  else if 'a' ≤ c ∧ c ≤ 'f' then c.toNat - 'a'.toNat + 10
  else if 'A' ≤ c ∧ c ≤ 'F' then c.toNat - 'A'.toNat + 10
  else 0

/-- The table `upperhex`. -/
def upperhex (n : Nat) : Char := "0123456789ABCDEF".toList.getD n '0'

/-- Go `stringContainsCTLByte`. -/
def stringContainsCTLByte (s : Str) : Bool := s.any fun b => b < ' ' ∨ b = Char.ofNat 0x7f

/-- Go `shouldEscape(c, mode)`. -/
def shouldEscape (c : Char) (mode : Encoding) : Bool :=
  if isAlpha c || isDigit c then false
  else if (mode = encodeHost ∨ mode = encodeZone) ∧
      c ∈ ['!', '$', '&', '\'', '(', ')', '*', '+', ',', ';', '=', ':', '[', ']', '<', '>', '"'] then
    false
  else if c ∈ ['-', '_', '.', '~'] then false
  else if c ∈ ['$', '&', '+', ',', '/', ':', ';', '=', '?', '@'] then
    match mode with
    | encodePath => c = '?'
    | encodePathSegment => c = '/' ∨ c = ';' ∨ c = ',' ∨ c = '?'
    | encodeUserPassword => c = '@' ∨ c = '/' ∨ c = '?' ∨ c = ':'
    | encodeQueryComponent => true
    | encodeFragment => false
    | _ => true
  else if mode = encodeFragment ∧ c ∈ ['!', '(', ')', '*'] then false
  else true

/-- First loop of `unescape`: counts the `%` escapes and checks that they are
well formed. Returns the count and `hasPlus`. -/
def unescapeCheck (mode : Encoding) : Str → Nat → Bool → Except Str (Nat × Bool)
  | [], n, hasPlus => .ok (n, hasPlus)
  | c :: rest, n, hasPlus =>
    if c = '%' then
      match rest with
      | a :: b :: rest' =>
        if !ishex a || !ishex b then .error ("invalid URL escape ".toList ++ [c, a, b])
        else if mode = encodeHost ∧ unhex a < 8 ∧ [c, a, b] ≠ "%25".toList then
          .error ("invalid URL escape ".toList ++ [c, a, b])
        else if mode = encodeZone ∧ [c, a, b] ≠ "%25".toList ∧
            Char.ofNat (unhex a * 16 + unhex b) ≠ ' ' ∧
            shouldEscape (Char.ofNat (unhex a * 16 + unhex b)) encodeHost then
          .error ("invalid URL escape ".toList ++ [c, a, b])
        else unescapeCheck mode rest' (n + 1) hasPlus
      | _ => .error ("invalid URL escape ".toList ++ (c :: rest).take 3)
    else if c = '+' then
      unescapeCheck mode rest n (decide (mode = encodeQueryComponent))
    else if (mode = encodeHost ∨ mode = encodeZone) ∧ c.toNat < 0x80 ∧ shouldEscape c encodeHost then
      .error ("invalid character in host name ".toList ++ [c])
    else unescapeCheck mode rest n hasPlus

/-- Second loop of `unescape`: decodes a string whose escapes are well formed. -/
def unescapeDecode (mode : Encoding) : Str → Str
  | [] => []
  | c :: rest =>
    if c = '%' then
      match rest with
      | a :: b :: rest' => Char.ofNat (unhex a * 16 + unhex b) :: unescapeDecode mode rest'
      | _ => []
    else if c = '+' then
      (if mode = encodeQueryComponent then ' ' else '+') :: unescapeDecode mode rest
    else c :: unescapeDecode mode rest

/-- Go `unescape(s, mode)`. -/
def unescape (s : Str) (mode : Encoding) : Except Str Str :=
  match unescapeCheck mode s 0 false with
  | .error e => .error e
  | .ok (n, hasPlus) =>
    if n = 0 ∧ hasPlus = false then .ok s else .ok (unescapeDecode mode s)

/-- Go `escape(s, mode)`. -/
def escape (s : Str) (mode : Encoding) : Str :=
  let spaceCount := s.countP fun c => shouldEscape c mode && (c = ' ' ∧ mode = encodeQueryComponent)
  let hexCount := s.countP fun c => shouldEscape c mode && !(c = ' ' ∧ mode = encodeQueryComponent)
  if spaceCount = 0 ∧ hexCount = 0 then s
  else
    s.flatMap fun c =>
      if c = ' ' ∧ mode = encodeQueryComponent then ['+']
      else if shouldEscape c mode then ['%', upperhex (c.toNat / 16), upperhex (c.toNat % 16)]
      else [c]

/-- Go `validEncoded(s, mode)`. -/
def validEncoded (s : Str) (mode : Encoding) : Bool :=
  s.all fun c =>
    if c ∈ ['!', '$', '&', '\'', '(', ')', '*', '+', ',', ';', '=', ':', '@'] then true
    else if c ∈ ['[', ']'] then true
    else if c = '%' then true
    else !shouldEscape c mode

/-- Go `getScheme`, the loop from byte `i` on; `rest` is `rawURL[i:]`. -/
def getSchemeLoop (rawURL : Str) : Nat → Str → Except Str (Str × Str)
  | _, [] => .ok ([], rawURL)
  | i, c :: rest =>
    if isAlpha c then getSchemeLoop rawURL (i + 1) rest
    else if isDigit c ∨ c = '+' ∨ c = '-' ∨ c = '.' then
      if i = 0 then .ok ([], rawURL) else getSchemeLoop rawURL (i + 1) rest
    else if c = ':' then
      if i = 0 then .error "missing protocol scheme".toList
      else .ok (rawURL.take i, rest)
    else .ok ([], rawURL)

/-- Go `getScheme(rawURL)`. -/
def getScheme (rawURL : Str) : Except Str (Str × Str) := getSchemeLoop rawURL 0 rawURL

/-- Go `validOptionalPort(port)`. -/
def validOptionalPort (port : Str) : Bool :=
  match port with
  | [] => true
  | c :: digits => c = ':' && digits.all fun b => !(b < '0' ∨ b > '9')

/-- Go `validUserinfo(s)`. -/
def validUserinfo (s : Str) : Bool :=
  s.all fun r =>
    isAlpha r || isDigit r ||
      r ∈ ['-', '.', '_', ':', '~', '!', '$', '&', '\'', '(', ')', '*', '+', ',', ';', '=', '%', '@']

/-- Go `parseHost(host)`. -/
def parseHost (host : Str) : Except Str Str :=
  let plain : Except Str Str := unescape host encodeHost
  if strings.HasPrefix host ['['] then
    match strings.LastIndexByte ']' host with
    | none => .error "missing ']' in host".toList
    | some i =>
      let colonPort := host.drop (i + 1)
      if !validOptionalPort colonPort then
        .error ("invalid port after host ".toList ++ colonPort)
      else
        match strings.Index "%25".toList (host.take i) with
        | some zone =>
          match unescape (host.take zone) encodeHost with
          | .error e => .error e
          | .ok host1 =>
            match unescape ((host.take i).drop zone) encodeZone with
            | .error e => .error e
            | .ok host2 =>
              match unescape (host.drop i) encodeHost with
              | .error e => .error e
              | .ok host3 => .ok (host1 ++ host2 ++ host3)
        | none => plain
  else
    match strings.LastIndexByte ':' host with
    | some i =>
      let colonPort := host.drop i
      if !validOptionalPort colonPort then
        .error ("invalid port after host ".toList ++ colonPort)
      else plain
    | none => plain

/-- Go `parseAuthority(authority)`. -/
def parseAuthority (authority : Str) : Except Str (Option Userinfo × Str) :=
  match strings.LastIndexByte '@' authority with
  | none =>
    match parseHost authority with
    | .error e => .error e
    | .ok host => .ok (none, host)
  | some i =>
    match parseHost (authority.drop (i + 1)) with
    | .error e => .error e
    | .ok host =>
      let userinfo := authority.take i
      if !validUserinfo userinfo then .error "net/url: invalid userinfo".toList
      else if !strings.Contains ':' userinfo then
        match unescape userinfo encodeUserPassword with
        | .error e => .error e
        | .ok u => .ok (some ⟨u, [], false⟩, host)
      else
        let c := strings.Cut ':' userinfo
        match unescape c.1 encodeUserPassword with
        | .error e => .error e
        | .ok username =>
          match unescape c.2.1 encodeUserPassword with
          | .error e => .error e
          | .ok password => .ok (some ⟨username, password, true⟩, host)

/-- Go `(*URL).setPath(p)`. -/
def URL.setPath (u : URL) (p : Str) : Except Str URL :=
  match unescape p encodePath with
  | .error e => .error e
  | .ok path =>
    if p = escape path encodePath then .ok { u with Path := path, RawPath := [] }
    else .ok { u with Path := path, RawPath := p }

/-- Go `(*URL).setFragment(f)`. -/
def URL.setFragment (u : URL) (f : Str) : Except Str URL :=
  match unescape f encodeFragment with
  | .error e => .error e
  | .ok frag =>
    if f = escape frag encodeFragment then .ok { u with Fragment := frag, RawFragment := [] }
    else .ok { u with Fragment := frag, RawFragment := f }

/-- Go `(*URL).EscapedPath()`. -/
def URL.EscapedPath (u : URL) : Str :=
  let dflt : Str := if u.Path = ['*'] then ['*'] else escape u.Path encodePath
  if u.RawPath ≠ [] ∧ validEncoded u.RawPath encodePath then
    match unescape u.RawPath encodePath with
    | .ok p => if p = u.Path then u.RawPath else dflt
    | .error _ => dflt
  else dflt

/-- Go `(*URL).EscapedFragment()`. -/
def URL.EscapedFragment (u : URL) : Str :=
  let dflt : Str := escape u.Fragment encodeFragment
  if u.RawFragment ≠ [] ∧ validEncoded u.RawFragment encodeFragment then
    match unescape u.RawFragment encodeFragment with
    | .ok f => if f = u.Fragment then u.RawFragment else dflt
    | .error _ => dflt
  else dflt

/-- Go `(*Userinfo).String()` on a non-nil receiver. -/
def Userinfo.String (u : Userinfo) : Str :=
  let s := escape u.username encodeUserPassword
  if u.passwordSet then s ++ [':'] ++ escape u.password encodeUserPassword else s

/-- Go `parse(rawURL, viaRequest)`. -/
def parse (rawURL : Str) (viaRequest : Bool) : Except Str URL :=
  if stringContainsCTLByte rawURL then .error "net/url: invalid control character in URL".toList
  else if rawURL = [] ∧ viaRequest then .error "empty url".toList
  else if rawURL = ['*'] then .ok { Path := ['*'] }
  else
    match getScheme rawURL with
    | .error e => .error e
    | .ok (scheme, rest0) =>
      let url : URL := { Scheme := strings.ToLower scheme }
      let forced : Bool := strings.HasSuffix rest0 ['?'] && strings.Count '?' rest0 = 1
      let rest : Str := if forced then rest0.dropLast else (strings.Cut '?' rest0).1
      let url : URL :=
        if forced then { url with ForceQuery := true }
        else { url with RawQuery := (strings.Cut '?' rest0).2.1 }
      if !strings.HasPrefix rest ['/'] ∧ url.Scheme ≠ [] then .ok { url with Opaque := rest }
      else if !strings.HasPrefix rest ['/'] ∧ viaRequest then .error "invalid URI for request".toList
      else if !strings.HasPrefix rest ['/'] ∧ strings.Contains ':' (strings.Cut '/' rest).1 then
        .error "first path segment in URL cannot contain colon".toList
      else if (url.Scheme ≠ [] ∨ (!viaRequest ∧ !strings.HasPrefix rest ['/', '/', '/'])) ∧
          strings.HasPrefix rest ['/', '/'] then
        let authority0 := rest.drop 2
        let authority : Str :=
          match strings.IndexByte '/' authority0 with
          | some i => authority0.take i
          | none => authority0
        let rest' : Str :=
          match strings.IndexByte '/' authority0 with
          | some i => authority0.drop i
          | none => []
        match parseAuthority authority with
        | .error e => .error e
        | .ok (user, host) => URL.setPath { url with User := user, Host := host } rest'
      else if url.Scheme ≠ [] ∧ strings.HasPrefix rest ['/'] then
        URL.setPath { url with OmitHost := true } rest
      else URL.setPath url rest

/-- The elements of a path: the pieces between its `/` separators. -/
def segments : Str → List Str
  | [] => [[]]
  | c :: cs =>
    if c = '/' then [] :: segments cs
    else
      match segments cs with
      | [] => [[c]]
      | s :: ss => (c :: s) :: ss

/-- A scheme as `getScheme` accepts it and `Parse` leaves it: a lower-case
letter followed by lower-case letters, digits, `+`, `-` and `.`. -/
def plainScheme (s : Str) : Bool :=
  match s with
  | [] => false
  | c :: cs =>
    decide ('a' ≤ c ∧ c ≤ 'z') &&
      cs.all fun c => decide ('a' ≤ c ∧ c ≤ 'z') || isDigit c || c ∈ ['+', '-', '.']

/-- A host without user information or escapes: a non-empty name made of
letters, digits, `-` and `.`, alone or followed by `:` and a non-empty
decimal port. -/
def plainHost (h : Str) : Bool :=
  let c := strings.Cut ':' h
  c.1 ≠ [] && (c.1.all fun b => isAlpha b || isDigit b || b ∈ ['-', '.']) &&
    (!c.2.2 || (c.2.1 ≠ [] && c.2.1.all isDigit))

/-- An absolute path that needs no escaping and no normalisation: empty, or
starting with one `/`, made of bytes `shouldEscape` leaves alone in a path
(letters, digits and `-_.~$&+,/:;=@`), with no element `.` or `..`. -/
def plainPath (p : Str) : Bool :=
  p = [] ||
    (p.head? = some '/' && (p.drop 1).head? ≠ some '/' &&
      p.all (fun c => !shouldEscape c .encodePath) &&
      (segments p).all fun s => s ≠ ['.'] ∧ s ≠ ['.', '.'])

/-- Go `url.Parse(rawURL)`. -/
def Parse (rawURL : Str) : Except GoError URL :=
  let c := strings.Cut '#' rawURL
  match parse c.1 false with
  | .error e => .error (.urlParse c.1 e)
  | .ok url =>
    if c.2.1 = [] then .ok url
    else
      match url.setFragment c.2.1 with
      | .error e => .error (.urlParse rawURL e)
      | .ok url' => .ok url'

/-- One turn of the loop of `resolvePath` on the element `elem`: the new
contents of `dst` and the new value of `first`. -/
def resolveStep (elem dst : Str) (first : Bool) : Str × Bool :=
  if elem = ['.'] then (dst, false)
  else if elem = ['.', '.'] then
    let str := dst.drop 1
    match strings.LastIndexByte '/' str with
    | none => (['/'], true)
    | some index => ('/' :: str.take index, first)
  else ((if first then dst else dst ++ ['/']) ++ elem, false)

/-- The loop `for found { elem, remaining, found = strings.Cut(remaining, "/"); ... }`
of `resolvePath`; returns `dst` and the last `elem`. `none`: out of fuel. -/
def resolveLoop : Nat → Str → Str → Bool → Option (Str × Str)
  | 0, _, _, _ => none
  | fuel + 1, remaining, dst, first =>
    let c := strings.Cut '/' remaining
    let s := resolveStep c.1 dst first
    if c.2.2 then resolveLoop fuel c.2.1 s.1 s.2 else some (s.1, c.1)

/-- Go `resolvePath(base, ref)`. The loop is run with fuel `len(full) + 1`, which
is always enough (`resolveLoop_isSome`), so the `none` branch is never taken. -/
def resolvePath (base ref : Str) : Str :=
  let full : Str :=
    match ref with
    | [] => base
    | c :: _ =>
      if c ≠ '/' then
        (match strings.LastIndexByte '/' base with
          | some i => base.take (i + 1)
          | none => []) ++ ref
      else ref
  if full = [] then []
  else
    match resolveLoop (full.length + 1) full ['/'] true with
    | none => []
    | some (dst, elem) =>
      let r := if elem = ['.'] ∨ elem = ['.', '.'] then dst ++ ['/'] else dst
      if r.length > 1 ∧ (r.drop 1).head? = some '/' then r.drop 1 else r

/-- The statement `url.setPath(p)` whose error `ResolveReference` ignores: on
an error the receiver is left as it was. -/
def URL.setPathIgnoringError (u : URL) (p : Str) : URL :=
  match u.setPath p with
  | .ok u' => u'
  | .error _ => u

/-- Go `(*URL).ResolveReference(ref)`. -/
def URL.ResolveReference (u ref : URL) : URL :=
  let url : URL := if ref.Scheme = [] then { ref with Scheme := u.Scheme } else ref
  if ref.Scheme ≠ [] ∨ ref.Host ≠ [] ∨ ref.User ≠ none then
    url.setPathIgnoringError (resolvePath ref.EscapedPath [])
  else if ref.Opaque ≠ [] then { url with User := none, Host := [], Path := [] }
  else
    let url : URL :=
      if ref.Path = [] ∧ !ref.ForceQuery ∧ ref.RawQuery = [] then
        if ref.Fragment = [] then
          { url with RawQuery := u.RawQuery, Fragment := u.Fragment, RawFragment := u.RawFragment }
        else { url with RawQuery := u.RawQuery }
      else url
    if ref.Path = [] ∧ u.Opaque ≠ [] then
      { url with Opaque := u.Opaque, User := none, Host := [], Path := [] }
    else
      URL.setPathIgnoringError { url with Host := u.Host, User := u.User }
        (resolvePath u.EscapedPath ref.EscapedPath)

/-- Go `(*URL).String()`. -/
def URL.String (u : URL) : Str :=
  let buf : Str := if u.Scheme ≠ [] then u.Scheme ++ [':'] else []
  let buf : Str :=
    if u.Opaque ≠ [] then buf ++ u.Opaque
    else
      let buf : Str :=
        if u.Scheme ≠ [] ∨ u.Host ≠ [] ∨ u.User ≠ none then
          if u.OmitHost ∧ u.Host = [] ∧ u.User = none then buf
          else
            let buf : Str :=
              if u.Host ≠ [] ∨ u.Path ≠ [] ∨ u.User ≠ none then buf ++ ['/', '/'] else buf
            let buf : Str :=
              match u.User with
              | some ui => buf ++ ui.String ++ ['@']
              | none => buf
            if u.Host ≠ [] then buf ++ escape u.Host encodeHost else buf
        else buf
      let path := u.EscapedPath
      let buf : Str :=
        if path ≠ [] ∧ path.head? ≠ some '/' ∧ u.Host ≠ [] then buf ++ ['/'] else buf
      let buf : Str :=
        if buf.length = 0 ∧ strings.Contains ':' (strings.Cut '/' path).1 then buf ++ ['.', '/']
        else buf
      buf ++ path
  let buf : Str := if u.ForceQuery ∨ u.RawQuery ≠ [] then buf ++ ['?'] ++ u.RawQuery else buf
  if u.Fragment ≠ [] then buf ++ ['#'] ++ u.EscapedFragment else buf

end url

/-! ## Runtime outcomes and pointers -/

/-- What a Go call does: it returns a value, or it panics. -/
inductive Outcome (α : Type) where
  | returned (a : α)
  | panicked (msg : Str)
  deriving DecidableEq, Repr

/-- A non-nil pointer `*α` into the program state `W`: how to read and how to
write the variable it points to. -/
structure Ref (W α : Type) where
  get : W → α
  set : α → W → W

/-- Go `map[string]string`: an association list with unique keys. -/
abbrev GoMap := List (Str × Str)

/-- The lookup `m[k]`. -/
def GoMap.get (m : GoMap) (k : Str) : Option Str := m.lookup k

/-- The assignment `m[k] = v`. -/
def GoMap.set (m : GoMap) (k v : Str) : GoMap := (k, v) :: m.filter fun e => e.1 != k

/-! ## package `io` -/

namespace io

/-- A byte stream (`io.Reader`, `io.ReadCloser`): the data still to come, cut
into the pieces successive `Read` calls deliver (a piece longer than the
buffer is delivered in several reads, an empty piece is a read of 0 bytes),
and the error `Read` returns once the data is exhausted (`io.EOF` for a
clean end of stream). -/
structure Reader where
  chunks : List Str
  term : GoError
  deriving DecidableEq, Repr

/-- All bytes the stream still holds. -/
def Reader.data (r : Reader) : Str := r.chunks.flatten

/-- Go `r.Read(p)` with `len(p) = k`: the bytes read, the error, the stream after. -/
def Reader.Read (r : Reader) (k : Nat) : (Str × Option GoError) × Reader :=
  match r.chunks with
  | [] => (([], some r.term), r)
  | c :: cs =>
    if c.length ≤ k then ((c, none), { r with chunks := cs })
    else ((c.take k, none), { r with chunks := c.drop k :: cs })

/-- Fuel that suffices for any loop that reads the stream with a non-empty
buffer until an error: every such read shortens `chunks` or a chunk. -/
def Reader.fuel (r : Reader) : Nat := (r.chunks.map fun c => c.length + 1).sum + 1

/-- Go `io.LimitedReader`. -/
structure LimitedReader where
  R : Reader
  N : Int
  deriving DecidableEq, Repr

/-- Go `(*LimitedReader).Read(p)` with `len(p) = k`. -/
def LimitedReader.Read (l : LimitedReader) (k : Nat) : (Str × Option GoError) × LimitedReader :=
  if l.N ≤ 0 then (([], some .EOF), l)
  else
    let k' : Nat := if (k : Int) > l.N then l.N.toNat else k
    let res := l.R.Read k'
    (res.1, { R := res.2, N := l.N - res.1.1.length })

/-- The loop of `discard.ReadFrom(r)`, which reads into a buffer of `k` bytes;
`n` is the count so far. `none`: out of fuel. -/
def discardReadFromLoop (k : Nat) :
    Nat → LimitedReader → Int → Option ((Int × Option GoError) × LimitedReader)
  | 0, _, _ => none
  | fuel + 1, l, n =>
    let res := l.Read k
    let n' := n + res.1.1.length
    match res.1.2 with
    | some err => if err = .EOF then some ((n', none), res.2) else some ((n', some err), res.2)
    | none => discardReadFromLoop k fuel res.2 n'

/-- Go `io.Copy(io.Discard, l)` for a `*LimitedReader` source: the source has no
`WriteTo`, `io.Discard` has `ReadFrom`, so the copy is `discard.ReadFrom(l)`,
whose buffer holds 8192 bytes. The fuel is always enough
(`discardReadFromLoop_spec`), so the `none` branch is never taken. -/
def CopyDiscard (l : LimitedReader) : (Int × Option GoError) × LimitedReader :=
  match discardReadFromLoop 8192 l.R.fuel l 0 with
  | some res => res
  | none => ((0, none), l)

/-- Go `io.CopyN(io.Discard, src, n)`: the count, the error and the source after. -/
def CopyNDiscard (src : Reader) (n : Int) : (Int × Option GoError) × Reader :=
  let res := CopyDiscard { R := src, N := n }
  let written := res.1.1
  if written = n then ((n, none), res.2.R)
  else if written < n ∧ res.1.2 = none then ((written, some .EOF), res.2.R)
  else (res.1, res.2.R)

/-- The loop of `copyBuffer(dst, src, buf)` for a destination whose `Write`
accepts everything (`strings.Builder`, `bytes.Buffer`); `dst` is what was
written so far, `k` is `len(buf)`. `none`: out of fuel. -/
def copyLoop (k : Nat) : Nat → Reader → Str → Option ((Str × Option GoError) × Reader)
  | 0, _, _ => none
  | fuel + 1, src, dst =>
    let res := src.Read k
    let dst' := if res.1.1.length > 0 then dst ++ res.1.1 else dst
    match res.1.2 with
    | some er => if er ≠ .EOF then some ((dst', some er), res.2) else some ((dst', none), res.2)
    | none => copyLoop k fuel res.2 dst'

/-- Go `io.Copy(&buf, src)` into a fresh `strings.Builder`: the builder's content,
the error and the source after. The buffer is the 32 KiB one of `io.Copy`.
The fuel is always enough (`copyLoop_spec`), so the `none` branch is never
taken. -/
def Copy (src : Reader) : (Str × Option GoError) × Reader :=
  match copyLoop (32 * 1024) src.fuel src [] with
  | some res => res
  | none => (([], none), src)

/-- Go `io.ReadAll(r)`: it reads until an error and reports `io.EOF` as `nil`.
Each read offers the free space of the growing buffer, at least one byte;
the model offers 512 bytes, the initial capacity, every time. -/
def ReadAll (src : Reader) : (Str × Option GoError) × Reader :=
  match copyLoop 512 src.fuel src [] with
  | some res => res
  | none => (([], none), src)

end io

/-! ## package `net/http` -/

namespace http

/-- Go `http.Client`. The transport, the redirect policy and the cookie jar are
interface or function values; the model keeps what identifies them. -/
structure Client (RT : Type) where
  Transport : Option RT
  CheckRedirect : Option Nat
  Jar : Option Nat
  Timeout : Int

/-- Go `http.Response`: the status code and the body stream (`nil` or a stream). -/
structure Response where
  StatusCode : Int
  Body : Option io.Reader
  deriving DecidableEq, Repr

/-- Go `http.Request`, as built by `NewRequestWithContext`. `W` is the program
state a body provider runs in, `B` the type of body streams. -/
structure Request (W B : Type) where
  ctx : Nat
  Method : Str
  URL : url.URL
  Header : GoMap
  Body : Option B
  GetBody : Option (W → Except GoError B × W)
  Host : Str

/-- Go `httpguts.IsTokenRune`. -/
def isTokenRune (c : Char) : Bool :=
  url.isAlpha c || url.isDigit c ||
    c ∈ ['!', '#', '$', '%', '&', '\'', '*', '+', '-', '.', '^', '_', '\x60', '|', '~']

/-- Go `validMethod(method)`. -/
def validMethod (method : Str) : Bool := method.length > 0 && method.all isTokenRune

/-- Go `removeEmptyPort(host)`. -/
def removeEmptyPort (host : Str) : Str :=
  let hasPort : Bool :=
    match strings.LastIndexByte ':' host, strings.LastIndexByte ']' host with
    | some i, some j => i > j
    | some _, none => true
    | none, _ => false
  if hasPort then strings.TrimSuffix host ':' else host

/-- Go `http.NewRequestWithContext(ctx, method, url, body)`; `ctx = none` is a nil
context. The body is the `io.ReadCloser` that `build` passes, whose dynamic
type is none of `*bytes.Buffer`, `*bytes.Reader`, `*strings.Reader` (they have
no `Close`), so the type switch on the body takes its default branch. -/
def NewRequestWithContext {W B : Type} (ctx : Option Nat) (method rawurl : Str)
    (body : Option B) : Except GoError (Request W B) :=
  let method := if method = [] then "GET".toList else method
  if !validMethod method then .error (.invalidMethod method)
  else
    match ctx with
    | none => .error .nilContext
    | some c =>
      match url.Parse rawurl with
      | .error err => .error err
      | .ok u =>
        let u := { u with Host := removeEmptyPort u.Host }
        .ok { ctx := c, Method := method, URL := u, Header := [], Body := body,
              GetBody := none, Host := u.Host }

end http

/-! ## package `body` -/

namespace body

/-- The type `body.Getter` of `body/body.go`: `func() (io.ReadCloser, error)`,
run in the program state `W`. -/
abbrev Getter (W B : Type) := W → Except GoError B × W

/-- The reader objects of the program: entry `i` is the state of reader `i`. -/
abbrev Heap := List io.Reader

/-- An `io.ReadCloser` handed out by a provider, named by the reader object
that its `Read` reads from (`io.NopCloser(r)` reads from `r`). -/
abbrev Stream := Nat

/-- Go `bytes.NewReader(b)` and `strings.NewReader(s)`: each `Read` delivers as
much of the rest as the buffer holds, then `io.EOF`. -/
def NewReader (b : Str) : io.Reader := { chunks := if b = [] then [] else [b], term := .EOF }

/-- Go `s.Read(p)` with `len(p) = k` on the stream `s`: what is read and the heap
after. A stream that names no reader object yields nothing. -/
def Heap.read (h : Heap) (s : Stream) (k : Nat) : (Str × Option GoError) × Heap :=
  match h.get? s with
  | none => (([], some .EOF), h)
  | some r => ((r.Read k).1, h.set s (r.Read k).2)

/-- Go `io.ReadAll(s)` on the stream `s`: what is read and the heap after. -/
def Heap.readAll (h : Heap) (s : Stream) : (Str × Option GoError) × Heap :=
  match h.get? s with
  | none => (([], none), h)
  | some r => ((io.ReadAll r).1, h.set s (io.ReadAll r).2)

/-- Any number of reads on the stream `s`, with buffers of the sizes `ks`:
the heap after. -/
def Heap.reads (h : Heap) (s : Stream) (ks : List Nat) : Heap :=
  ks.foldl (fun h k => (h.read s k).2) h

/-- The function `body.Reader(r)` of `body/body.go`: every call returns `r` itself, or `io.NopCloser(r)`,
which reads from `r`. -/
def Reader (r : Stream) : Getter Heap Stream := fun h => (.ok r, h)

/-- The function `body.Bytes(b)` of `body/body.go`. -/
def Bytes (b : Str) : Getter Heap Stream := fun h => (.ok h.length, h ++ [NewReader b])

/-- The function `body.JSON(v)` of `body/body.go`; `marshal` is `json.Marshal`. -/
def JSON {V : Type} (marshal : V → Except GoError Str) (v : V) : Getter Heap Stream := fun h =>
  match marshal v with
  | .error err => (.error err, h)
  | .ok b => (.ok h.length, h ++ [NewReader b])

/-- Go `url.Values.Encode()` on the map `data`, given as its entries. -/
def Encode (data : List (Str × List Str)) : Str :=
  let keys := (data.map Prod.fst).insertionSort fun a b => a ≤ b
  keys.foldl (fun buf k =>
    let vs := (data.lookup k).getD []
    let keyEscaped := url.escape k .encodeQueryComponent
    vs.foldl (fun buf v =>
      (if buf.length > 0 then buf ++ ['&'] else buf) ++ keyEscaped ++ ['='] ++
        url.escape v .encodeQueryComponent) buf) []

/-- The function `body.Form(data)` of `body/body.go`. -/
def Form (data : List (Str × List Str)) : Getter Heap Stream := fun h =>
  (.ok h.length, h ++ [NewReader (Encode data)])

/-- The provider `g`, started in the heap `h`, yields a fresh stream with the
full content `b` on each of two calls: the two streams are different objects,
the first read from its start yields all of `b`, and so does the second,
whatever reads `ks` were made on the first in between. -/
def FreshTwice (g : Getter Heap Stream) (b : Str) (h : Heap) (ks : List Nat) : Prop :=
  ∃ (s1 s2 : Stream) (h1 h3 : Heap),
    g h = (.ok s1, h1) ∧ g (h1.reads s1 ks) = (.ok s2, h3) ∧ s1 ≠ s2 ∧
      h.get? s1 = none ∧ (h1.reads s1 ks).get? s2 = none ∧
      (h1.readAll s1).1 = (b, none) ∧ (h3.readAll s2).1 = (b, none)

end body

/-! ## package `reply` -/

namespace reply

/-- The type `reply.Handler` of `reply/reply.go`: `func(*http.Response) error`,
run in the program state `W`. -/
abbrev Handler (W : Type) := http.Response → W → Outcome (Option GoError) × W

/-- The function `reply.ToString(sp)` of `reply/reply.go`. A nil response body
makes `io.Copy` panic. -/
def ToString {W : Type} (sp : Ref W Str) : Handler W := fun res w =>
  match res.Body with
  | none => (.panicked "invalid memory address or nil pointer dereference".toList, w)
  | some body =>
    let r := io.Copy body
    match r.1.2 with
    | none => (.returned none, sp.set r.1.1 w)
    | some err => (.returned (some err), w)

end reply

/-! ## package `request` -/

/-- The struct `PathParam` of `request.go`. -/
structure PathParam where
  Name : Str
  Value : Str
  deriving DecidableEq, Repr

/-- The method call `err.Error()` on an error value; on the nil error it is a
nil-pointer dereference, a run-time panic. -/
def errorText (describe : GoError → Str) (err : Option GoError) : Outcome Str :=
  match err with
  | some e => .returned (describe e)
  | none => .panicked "invalid memory address or nil pointer dereference".toList

/-- The function `NewPathParam(key, val)` of `request.go`. The conversion
`toStringE` is defined outside the files embedded here and is a parameter:
it returns a string and an error (`none` is nil). So is the text `Error()`
gives for an error. -/
def NewPathParam {α : Type} (toStringE : α → Str × Option GoError) (describe : GoError → Str)
    (key : Str) (val : α) : Outcome PathParam :=
  let r := toStringE val
  if r.2 = none then
    match errorText describe r.2 with
    | .returned text => .returned { Name := key, Value := text }
    | .panicked msg => .panicked msg
  else .returned { Name := key, Value := r.1 }

/-- The value of the last parameter called `name` in `ps`, if there is one. -/
def lastValue (ps : List PathParam) (name : Str) : Option Str :=
  (ps.reverse.find? fun p => p.Name == name).map PathParam.Value

/-- The struct `Request` of `request.go`. `W` is the program state in which body providers, the transport
and response handlers run, `B` the type of body streams, `RT` the type of
transports. `client` is a pointer into the heap of clients (`none` is nil). -/
structure Request (W B RT : Type) where
  verb : Str
  baseUrl : Str
  path : Str
  pathParams : GoMap
  headers : GoMap
  bodyGetter : Option (body.Getter W B)
  handler : Option (reply.Handler W)
  client : Option Nat
  roundTripper : Option RT

section Builder

variable {W B RT : Type}

/-- The function `newRequest(verb, baseUrl)` of `request.go`. -/
def newRequest (verb baseUrl : Str) : Request W B RT :=
  { verb := verb, baseUrl := baseUrl, path := [], pathParams := [], headers := [],
    bodyGetter := none, handler := none, client := none, roundTripper := none }

def Get (baseUrl : Str) : Request W B RT := newRequest "GET".toList baseUrl

def Head (baseUrl : Str) : Request W B RT := newRequest "HEAD".toList baseUrl

def Post (baseUrl : Str) : Request W B RT := newRequest "POST".toList baseUrl

def Put (baseUrl : Str) : Request W B RT := newRequest "PUT".toList baseUrl

def Patch (baseUrl : Str) : Request W B RT := newRequest "PATCH".toList baseUrl

def Delete (baseUrl : Str) : Request W B RT := newRequest "DELETE".toList baseUrl

/-- The statement `r.pathParams[el.Name] = el.Value` in the loop of `Path`. -/
def Request.setPathParam (r : Request W B RT) (el : PathParam) : Request W B RT :=
  { r with pathParams := r.pathParams.set el.Name el.Value }

/-- The method `(*Request).Path(path, params...)` of `request.go`. -/
def Request.Path (r : Request W B RT) (path : Str) (params : List PathParam) : Request W B RT :=
  params.foldl Request.setPathParam { r with path := path }

/-- A sequence of `Path` calls on one `Request`, each call given as its path
argument and its parameters. -/
def Request.pathCalls (r : Request W B RT) (calls : List (Str × List PathParam)) :
    Request W B RT :=
  calls.foldl (fun r c => r.Path c.1 c.2) r

/-- The method `(*Request).Header(key, value)` of `request.go`. -/
def Request.Header (r : Request W B RT) (key value : Str) : Request W B RT :=
  { r with headers := r.headers.set key value }

/-- The method `(*Request).Client(cl)` of `request.go`. -/
def Request.Client (r : Request W B RT) (cl : Option Nat) : Request W B RT :=
  { r with client := cl }

/-- The method `(*Request).Transport(rt)` of `request.go`. -/
def Request.Transport (r : Request W B RT) (rt : Option RT) : Request W B RT :=
  { r with roundTripper := rt }

/-- The method `(*Request).Body(src)` of `request.go`. -/
def Request.Body (r : Request W B RT) (src : Option (body.Getter W B)) : Request W B RT :=
  { r with bodyGetter := src }

/-- The method `(*Request).IntoString(sp)` of `request.go`. -/
def Request.IntoString (r : Request W B RT) (sp : Ref W Str) : Request W B RT :=
  { r with handler := some (reply.ToString sp) }

/-- The method `(*Request).ReplyHandler(h)` of `request.go`. -/
def Request.ReplyHandler (r : Request W B RT) (h : Option (reply.Handler W)) : Request W B RT :=
  { r with handler := h }

/-- The type of `uritemplates.Expand(path, values)`: the escaped and the
unescaped expansion, or an error. The package `uritemplates` is outside the
files embedded here; the expander is a parameter of everything that uses it. -/
abbrev Expander := Str → GoMap → Except GoError (Str × Str)

/-- Modelled from the spec: the URI-template expander `uritemplates.Expand`,
which is outside the files embedded here, on a template without placeholders.
The spec leaves the expansion rules to the expander; on a template that has
no placeholder there is nothing to substitute and both forms of the expansion
are the template itself, as in the case `user-accounts` of `TestRequestURL`.
It stands for the expander only on such templates. -/
def literalExpand : Expander := fun path _ => .ok (path, path)

/-- The function `buildUrl(baseUrl, path, vars)` of `request.go`. -/
def buildUrl (Expand : Expander) (baseUrl path : Str) (vars : GoMap) : Except GoError url.URL :=
  match url.Parse baseUrl with
  | .error err => .error err
  | .ok u =>
    match Expand path vars with
    | .error err => .error err
    | .ok (_, unescaped) =>
      match url.Parse unescaped with
      | .error err => .error err
      | .ok ref => .ok (u.ResolveReference ref)

/-- The calls `Do` makes to its collaborators, in the order it makes them. -/
inductive Event (W B RT : Type) where
  | buildUrl (baseUrl path : Str) (vars : GoMap)
  | bodyGetter
  | newRequest (verb rawurl : Str) (body : Option B)
  | clientDo (cl : http.Client RT) (req : http.Request W B)
  | handler (res : http.Response)
  | bodyClose

/-- The call `req.Header.Set(k, v)`. `Header.Set` stores the value under the
canonical form of the name; header names are not the subject of this
development and are kept as written. -/
def headerSet (h : GoMap) (k v : Str) : GoMap := h.set k v

/-- The loop `for k, v := range r.headers { req.Header.Set(k, v) }` of `build`. -/
def setHeaders (headers : GoMap) (req : http.Request W B) : http.Request W B :=
  headers.foldl
    (fun (req : http.Request W B) (kv : Str × Str) =>
      { req with Header := headerSet req.Header kv.1 kv.2 }) req

/-- Lines `var body io.ReadCloser; if r.bodyGetter != nil { body, err = r.bodyGetter() ... }`
of `build`: the body (`none` is the nil stream) or the provider's error, the
calls made, the state after. -/
def Request.acquireBody (r : Request W B RT) (w : W) :
    Except GoError (Option B) × List (Event W B RT) × W :=
  match r.bodyGetter with
  | none => (.ok none, [], w)
  | some getter =>
    match getter w with
    | (.error err, w') => (.error err, [.bodyGetter], w')
    | (.ok b, w') => (.ok (some b), [.bodyGetter], w')

/-- The method `(*Request).build(ctx)` of `request.go`: the result, the calls
made, the state after. -/
def Request.build (Expand : Expander) (r : Request W B RT) (ctx : Option Nat) (w : W) :
    Except GoError (http.Request W B) × List (Event W B RT) × W :=
  match buildUrl Expand r.baseUrl r.path r.pathParams with
  | .error err => (.error err, [.buildUrl r.baseUrl r.path r.pathParams], w)
  | .ok u =>
    match r.acquireBody w with
    | (.error err, t, w') => (.error err, .buildUrl r.baseUrl r.path r.pathParams :: t, w')
    | (.ok body, t, w') =>
      let t := .buildUrl r.baseUrl r.path r.pathParams :: t ++ [.newRequest r.verb u.String body]
      match (http.NewRequestWithContext ctx r.verb u.String body : Except GoError (http.Request W B)) with
      | .error err => (.error err, t, w')
      | .ok req =>
        let req : http.Request W B := { req with GetBody := r.bodyGetter }
        (.ok (setHeaders r.headers req), t, w')

/-- The constant `maxDiscardSize = 640 * 1 << 10` of `consumeBody`. -/
def maxDiscardSize : Nat := (640 * 1) <<< 10

/-- The function `consumeBody(res)` of `request.go`: the error returned and
the body stream after. -/
def consumeBody (res : http.Response) : Outcome (Option GoError) × Option io.Reader :=
  match res.Body with
  | none => (.panicked "invalid memory address or nil pointer dereference".toList, none)
  | some body =>
    let r := io.CopyNDiscard body (maxDiscardSize : Nat)
    if r.1.2 = some .EOF then (.returned none, some r.2) else (.returned r.1.2, some r.2)

/-- What the environment of `Do` provides: the template expander, the shared
default client `DefaultClient()` (a pointer into the heap of clients) and
`(*http.Client).Do`, the transport call. -/
structure Env (W B RT : Type) where
  Expand : Expander
  DefaultClient : Nat
  clientDo : http.Client RT → http.Request W B → W → Except GoError http.Response × W

/-- The result of `Do`: what it returns, the calls it made, the heap of
clients and the program state after. -/
structure DoResult (W B RT : Type) where
  result : Outcome (Option GoError)
  trace : List (Event W B RT)
  clients : List (http.Client RT)
  world : W

/-- Lines `cl := DefaultClient(); if r.client != nil { cl = r.client };
if r.roundTripper != nil { cl2 := *cl; cl2.Transport = r.roundTripper; cl = &cl2 }`
of `Do`: the pointer `cl` and the heap of clients after, in which `cl2` is a
new object. -/
def Request.selectClient (env : Env W B RT) (r : Request W B RT)
    (clients : List (http.Client RT)) : Outcome (Nat × List (http.Client RT)) :=
  let cl : Nat := match r.client with
    | some p => p
    | none => env.DefaultClient
  match r.roundTripper with
  | some rt =>
    match clients.get? cl with
    | none => .panicked "invalid memory address or nil pointer dereference".toList
    | some c =>
      let cl2 : http.Client RT := { c with Transport := some rt }
      .returned (clients.length, clients ++ [cl2])
  | none => .returned (cl, clients)

/-- The method `(*Request).Do(ctx)` of `request.go`, run on the heap of
clients `clients` and the state `w`. -/
def Request.Do (env : Env W B RT) (r : Request W B RT) (ctx : Option Nat)
    (clients : List (http.Client RT)) (w : W) : DoResult W B RT :=
  match r.build env.Expand ctx w with
  | (.error err, t, w1) => ⟨.returned (some err), t, clients, w1⟩
  | (.ok req, t, w1) =>
    match r.selectClient env clients with
    | .panicked msg => ⟨.panicked msg, t, clients, w1⟩
    | .returned (cl, clients') =>
      match clients'.get? cl with
      | none => ⟨.panicked "invalid memory address or nil pointer dereference".toList, t, clients', w1⟩
      | some c =>
        match env.clientDo c req w1 with
        | (.error err, w2) => ⟨.returned (some err), t ++ [.clientDo c req], clients', w2⟩
        | (.ok res, w2) =>
          let handler : reply.Handler W :=
            match r.handler with
            | some h => h
            | none => fun res w => ((consumeBody res).1, w)
          let out := handler res w2
          ⟨out.1, t ++ [.clientDo c req, .handler res, .bodyClose], clients', out.2⟩

end Builder

/-- The JSON codec as `CheckStatus` uses it. `unmarshalInto data v` is
`json.Unmarshal(data, p)` for a non-nil pointer `p` to a variable holding `v`:
the error and the variable after. `unmarshalAny data` is `json.Unmarshal` into
a variable of interface type that holds no non-nil pointer: it fails exactly
when `data` is not valid JSON. -/
structure Codec (V : Type) where
  unmarshalInto : Str → V → Option GoError × V
  unmarshalAny : Str → Option GoError

/-- The argument `val any` of `CheckStatus`: the nil interface, a non-nil
pointer to a destination, or any other value. -/
inductive Dest (W V : Type) where
  | nil
  | pointer (p : Ref W V)
  | other

/-- The function `CheckStatus(val, acceptStatuses...)` of
`reply_validators.go`. `json.Unmarshal(data, &val)` is
handed the address of the handler's own variable `val`; when `val` holds a
non-nil pointer the decoder follows it and fills the destination, otherwise it
overwrites the variable `val`. -/
def CheckStatus {W V : Type} (codec : Codec V) (val : Dest W V) (acceptStatuses : List Int) :
    reply.Handler W := fun res w =>
  if acceptStatuses.any (fun code => res.StatusCode == code) then (.returned none, w)
  else
    match res.Body, val with
    | none, _ => (.returned (some (.unexpectedStatus res.StatusCode)), w)
    | some _, .nil => (.returned (some (.unexpectedStatus res.StatusCode)), w)
    | some body, .pointer p =>
      let r := io.ReadAll body
      match r.1.2 with
      | some err => (.returned (some err), w)
      | none =>
        let d := codec.unmarshalInto r.1.1 (p.get w)
        (.returned d.1, p.set d.2 w)
    | some body, .other =>
      let r := io.ReadAll body
      match r.1.2 with
      | some err => (.returned (some err), w)
      | none => (.returned (codec.unmarshalAny r.1.1), w)

/-! # Theorems -/

/-! ## Path parameters -/

theorem GoMap.get_set (m : GoMap) (k v k' : Str) :
    (m.set k v).get k' = if k' = k then some v else m.get k' := by
  unfold GoMap.set GoMap.get
  by_cases h : k' = k
  · subst h
    simp [List.lookup]
  · have hb : (k' == k) = false := by simpa using h
    simp only [List.lookup, hb, if_neg h]
    induction m with
    | nil => rfl
    | cons e m ih =>
      obtain ⟨a, b⟩ := e
      by_cases ha : a = k
      · subst ha
        have hb' : (k' == a) = false := by simpa using h
        simp [List.filter, List.lookup, hb', ih]
      · have : (a != k) = true := by simpa using ha
        simp only [List.filter, this, List.lookup]
        cases hk : (k' == a) <;> simp [ih]

theorem lastValue_cons (p : PathParam) (ps : List PathParam) (name : Str) :
    lastValue (p :: ps) name =
      (lastValue ps name).orElse fun _ => if name = p.Name then some p.Value else none := by
  unfold lastValue
  rw [List.reverse_cons, List.find?_append]
  cases List.find? (fun p => p.Name == name) ps.reverse with
  | some q => simp [Option.orElse]
  | none =>
    by_cases h : name = p.Name
    · subst h; simp [Option.orElse]
    · have : (p.Name == name) = false := by simpa using fun h' => h h'.symm
      simp [Option.orElse, List.find?, this, h]

theorem lastValue_append (ps qs : List PathParam) (name : Str) :
    lastValue (ps ++ qs) name = (lastValue qs name).orElse fun _ => lastValue ps name := by
  unfold lastValue
  rw [List.reverse_append, List.find?_append]
  cases List.find? (fun p => p.Name == name) qs.reverse <;> simp [Option.orElse]

theorem foldl_set_get (ps : List PathParam) (m : GoMap) (name : Str) :
    (ps.foldl (fun m el => GoMap.set m el.Name el.Value) m).get name =
      (lastValue ps name).orElse fun _ => m.get name := by
  induction ps generalizing m with
  | nil => simp [lastValue, Option.orElse]
  | cons p ps ih =>
    rw [List.foldl_cons, ih, GoMap.get_set, lastValue_cons]
    cases lastValue ps name with
    | some v => simp [Option.orElse]
    | none => by_cases h : name = p.Name <;> simp [Option.orElse, h]

section
variable {W B RT : Type}

theorem foldl_setPathParam (ps : List PathParam) (r : Request W B RT) :
    ps.foldl Request.setPathParam r =
      { r with pathParams := ps.foldl (fun m el => GoMap.set m el.Name el.Value) r.pathParams } := by
  induction ps generalizing r with
  | nil => rfl
  | cons p ps ih => rw [List.foldl_cons, ih]; rfl

theorem Path_pathParams (r : Request W B RT) (path : Str) (ps : List PathParam) (name : Str) :
    (r.Path path ps).pathParams.get name = (lastValue ps name).orElse fun _ => r.pathParams.get name := by
  unfold Request.Path
  rw [foldl_setPathParam]
  exact foldl_set_get ps _ name

theorem Path_path (r : Request W B RT) (path : Str) (ps : List PathParam) :
    (r.Path path ps).path = path := by
  unfold Request.Path
  rw [foldl_setPathParam]

theorem pathCalls_pathParams (calls : List (Str × List PathParam)) (r : Request W B RT) (name : Str) :
    (r.pathCalls calls).pathParams.get name =
      (lastValue (calls.flatMap Prod.snd) name).orElse fun _ => r.pathParams.get name := by
  induction calls generalizing r with
  | nil => simp [Request.pathCalls, lastValue, Option.orElse]
  | cons c calls ih =>
    have h := ih (r.Path c.1 c.2)
    unfold Request.pathCalls at h ⊢
    rw [List.foldl_cons, h, Path_pathParams, List.flatMap_cons, lastValue_append]
    cases lastValue (calls.flatMap Prod.snd) name <;> simp [Option.orElse]

theorem pathCalls_path (calls : List (Str × List PathParam)) (r : Request W B RT) :
    (r.pathCalls calls).path = (calls.getLast?.map Prod.fst).getD r.path := by
  induction calls generalizing r with
  | nil => rfl
  | cons c calls ih =>
    have h := ih (r.Path c.1 c.2)
    unfold Request.pathCalls at h ⊢
    rw [List.foldl_cons, h, Path_path]
    cases calls with
    | nil => rfl
    | cons d ds =>
      have hx : (d :: ds).getLast? = some ((d :: ds).getLast (by simp)) :=
        List.getLast?_eq_getLast _ (by simp)
      simp [List.getLast?_cons_cons, hx]


theorem buildUrl_congr (E1 E2 : Expander) (baseUrl path : Str) (vars : GoMap)
    (h : E1 path vars = E2 path vars) : buildUrl E1 baseUrl path vars = buildUrl E2 baseUrl path vars := by
  unfold buildUrl
  rw [h]

theorem build_congr (E1 E2 : Expander) (r : Request W B RT) (ctx : Option Nat) (w : W)
    (h : E1 r.path r.pathParams = E2 r.path r.pathParams) : r.build E1 ctx w = r.build E2 ctx w := by
  unfold Request.build
  rw [buildUrl_congr E1 E2 _ _ _ h]

/-- C6. After any sequence of `Path` calls on a `Request`, the parameter map
holds for each name the value of its last occurrence over all calls (call
order, then argument order), names not mentioned keep the value they had
before (the map is merged, never cleared), the template path is the path
argument of the last call, and `build` hands exactly this path and this map
to template expansion: its result depends on the expander only through the
expander's value at them. -/
theorem Path_last_write_wins (r : Request W B RT) (calls : List (Str × List PathParam))
    (name : Str) (ctx : Option Nat) (w : W) :
    (r.pathCalls calls).pathParams.get name =
        ((lastValue (calls.flatMap Prod.snd) name).orElse fun _ => r.pathParams.get name) ∧
      (r.pathCalls calls).path = (calls.getLast?.map Prod.fst).getD r.path ∧
      (∀ E1 E2 : Expander,
        E1 ((calls.getLast?.map Prod.fst).getD r.path) (r.pathCalls calls).pathParams =
            E2 ((calls.getLast?.map Prod.fst).getD r.path) (r.pathCalls calls).pathParams →
          (r.pathCalls calls).build E1 ctx w = (r.pathCalls calls).build E2 ctx w) := by
  refine ⟨pathCalls_pathParams calls r name, pathCalls_path calls r, ?_⟩
  intro E1 E2 h
  apply build_congr
  rw [pathCalls_path]
  exact h

/-- C6 on `Get(base).Path("/a", id=1, x=2, id=5).Path("/b", id=3)`: `id` is 3,
`x` is still 2, a name never given is absent, and the path is `/b`. -/
theorem Path_last_write_wins_witness :
    (((Get "http://e.com".toList : Request Unit Unit Unit).pathCalls
        [("/a".toList, [⟨"id".toList, "1".toList⟩, ⟨"x".toList, "2".toList⟩,
            ⟨"id".toList, "5".toList⟩]),
          ("/b".toList, [⟨"id".toList, "3".toList⟩])]).pathParams.get "id".toList =
        some "3".toList) ∧
      (((Get "http://e.com".toList : Request Unit Unit Unit).pathCalls
        [("/a".toList, [⟨"id".toList, "1".toList⟩, ⟨"x".toList, "2".toList⟩,
            ⟨"id".toList, "5".toList⟩]),
          ("/b".toList, [⟨"id".toList, "3".toList⟩])]).pathParams.get "x".toList =
        some "2".toList) ∧
      (((Get "http://e.com".toList : Request Unit Unit Unit).pathCalls
        [("/a".toList, [⟨"id".toList, "1".toList⟩, ⟨"x".toList, "2".toList⟩,
            ⟨"id".toList, "5".toList⟩]),
          ("/b".toList, [⟨"id".toList, "3".toList⟩])]).path = "/b".toList) :=
  ⟨(Path_last_write_wins (Get "http://e.com".toList : Request Unit Unit Unit)
      [("/a".toList, [⟨"id".toList, "1".toList⟩, ⟨"x".toList, "2".toList⟩,
          ⟨"id".toList, "5".toList⟩]),
        ("/b".toList, [⟨"id".toList, "3".toList⟩])] "id".toList none ()).1.trans (by decide),
   (Path_last_write_wins (Get "http://e.com".toList : Request Unit Unit Unit)
      [("/a".toList, [⟨"id".toList, "1".toList⟩, ⟨"x".toList, "2".toList⟩,
          ⟨"id".toList, "5".toList⟩]),
        ("/b".toList, [⟨"id".toList, "3".toList⟩])] "x".toList none ()).1.trans (by decide),
   (Path_last_write_wins (Get "http://e.com".toList : Request Unit Unit Unit)
      [("/a".toList, [⟨"id".toList, "1".toList⟩, ⟨"x".toList, "2".toList⟩,
          ⟨"id".toList, "5".toList⟩]),
        ("/b".toList, [⟨"id".toList, "3".toList⟩])] "x".toList none ()).2.1.trans (by decide)⟩

/-- C5 (defect). Whenever the conversion `toStringE(val)` succeeds, with any
result `s`, `NewPathParam(key, val)` does not return the parameter
`(key, s)`: it calls `Error()` on the nil error and panics. -/
theorem NewPathParam_panics_on_success {α : Type} (toStringE : α → Str × Option GoError)
    (describe : GoError → Str) (key : Str) (val : α) (s : Str)
    (h : toStringE val = (s, none)) :
    NewPathParam toStringE describe key val =
      .panicked "invalid memory address or nil pointer dereference".toList := by
  simp [NewPathParam, h, errorText]

/-- C5 at the input `NewPathParam("id", 42)`, where the conversion yields `"42"`. -/
theorem NewPathParam_panics_on_success_witness :
    (fun n : Nat => (Nat.toDigits 10 n, (none : Option GoError))) 42 = ("42".toList, none) ∧
      NewPathParam (fun n : Nat => (Nat.toDigits 10 n, (none : Option GoError)))
          (fun _ => []) "id".toList 42 =
        .panicked "invalid memory address or nil pointer dereference".toList :=
  ⟨by decide, NewPathParam_panics_on_success _ _ _ 42 "42".toList (by decide)⟩

end

theorem setHeaders_URL {W B : Type} (hs : GoMap) (q : http.Request W B) :
    (setHeaders hs q).URL = q.URL := by
  unfold setHeaders
  induction hs generalizing q with
  | nil => rfl
  | cons kv hs ih => rw [List.foldl_cons]; exact ih _

section
variable {W B RT : Type}

theorem setHeaders_frame (hs : GoMap) (q : http.Request W B) :
    (setHeaders hs q).Body = q.Body ∧ (setHeaders hs q).Method = q.Method ∧
      (setHeaders hs q).GetBody = q.GetBody := by
  unfold setHeaders
  induction hs generalizing q with
  | nil => exact ⟨rfl, rfl, rfl⟩
  | cons kv hs ih => rw [List.foldl_cons]; exact ih _

/-- C9. `Body(p)` changes the body-provider field and no other field of the
`Request` (so `Body` on a `Request` made by `Get` leaves the verb `"GET"`);
and whatever the verb, once the URL resolves `build` invokes the provider
attached by `Body` and passes the stream it returns to the request
constructor, whose request, when the verb is a valid method, the context is
not nil and the URL string parses, carries that very stream as its body and
the provider as its `GetBody`. -/
theorem Body_changes_only_provider (r : Request W B RT) (g : body.Getter W B)
    (Expand : Expander) (c : Nat) (w w' : W) (u u2 : url.URL) (s : B)
    (hu : buildUrl Expand r.baseUrl r.path r.pathParams = .ok u)
    (hg : g w = (.ok s, w'))
    (hverb : http.validMethod r.verb = true)
    (hparse : url.Parse u.String = .ok u2) :
    ((r.Body (some g)).verb = r.verb ∧ (r.Body (some g)).baseUrl = r.baseUrl ∧
        (r.Body (some g)).path = r.path ∧ (r.Body (some g)).pathParams = r.pathParams ∧
        (r.Body (some g)).headers = r.headers ∧ (r.Body (some g)).handler = r.handler ∧
        (r.Body (some g)).client = r.client ∧ (r.Body (some g)).roundTripper = r.roundTripper ∧
        (r.Body (some g)).bodyGetter = some g) ∧
      (∀ baseUrl : Str, ((Get baseUrl : Request W B RT).Body (some g)).verb = "GET".toList) ∧
      (∃ req : http.Request W B,
        (r.Body (some g)).build Expand (some c) w =
            (.ok req,
              [.buildUrl r.baseUrl r.path r.pathParams, .bodyGetter,
                .newRequest r.verb u.String (some s)], w') ∧
          req.Body = some s ∧ req.Method = r.verb ∧ req.GetBody = some g) := by
  refine ⟨⟨rfl, rfl, rfl, rfl, rfl, rfl, rfl, rfl, rfl⟩, fun _ => rfl, ?_⟩
  have hne : r.verb ≠ [] := by
    intro h
    rw [h] at hverb
    simp [http.validMethod] at hverb
  have hreq : (http.NewRequestWithContext (some c) r.verb u.String (some s) :
      Except GoError (http.Request W B)) =
      .ok { ctx := c, Method := r.verb, URL := { u2 with Host := http.removeEmptyPort u2.Host },
            Header := [], Body := some s, GetBody := none,
            Host := http.removeEmptyPort u2.Host } := by
    simp only [http.NewRequestWithContext, if_neg hne, hverb, hparse]
    rfl
  have hb : (r.Body (some g)).build Expand (some c) w =
      (.ok (setHeaders r.headers
          { ctx := c, Method := r.verb, URL := { u2 with Host := http.removeEmptyPort u2.Host },
            Header := [], Body := some s, GetBody := some g,
            Host := http.removeEmptyPort u2.Host }),
        [.buildUrl r.baseUrl r.path r.pathParams, .bodyGetter,
          .newRequest r.verb u.String (some s)], w') := by
    simp only [Request.build, Request.acquireBody, Request.Body, hu, hg, hreq]
    rfl
  exact ⟨_, hb, (setHeaders_frame _ _).1, (setHeaders_frame _ _).2.1, (setHeaders_frame _ _).2.2⟩

/-- C2. When the transport override is set and the request is built, `Do`
performs the call on a client that is the chosen client (the one set with
`Client`, otherwise the default client) with only `Transport` replaced by the
override; the call is made on a new client object, and every client that
existed before, the chosen one included, is afterwards what it was before. -/
theorem Do_transport_override_copies_client (env : Env W B RT) (r : Request W B RT)
    (ctx : Option Nat) (clients : List (http.Client RT)) (w w1 : W) (rt : RT)
    (req : http.Request W B) (t : List (Event W B RT)) (c : http.Client RT)
    (hrt : r.roundTripper = some rt)
    (hbuild : r.build env.Expand ctx w = (.ok req, t, w1))
    (hc : clients.get? (r.client.getD env.DefaultClient) = some c) :
    (∃ rest, (r.Do env ctx clients w).trace =
        t ++ .clientDo { Transport := some rt, CheckRedirect := c.CheckRedirect, Jar := c.Jar,
                         Timeout := c.Timeout } req :: rest) ∧
      (r.Do env ctx clients w).clients.get? (r.client.getD env.DefaultClient) = some c ∧
      (∀ i, i < clients.length → (r.Do env ctx clients w).clients.get? i = clients.get? i) := by
  have hcl : (match r.client with | some p => p | none => env.DefaultClient) =
      r.client.getD env.DefaultClient := by cases r.client <;> rfl
  have hlen : r.client.getD env.DefaultClient < clients.length := by
    rcases Nat.lt_or_ge (r.client.getD env.DefaultClient) clients.length with h | h
    · exact h
    · rw [List.get?_eq_none.mpr h] at hc; cases hc
  have hnew : (clients ++ [({ c with Transport := some rt } : http.Client RT)]).get? clients.length =
      some { c with Transport := some rt } := by simp
  have hold : ∀ i, i < clients.length →
      (clients ++ [({ c with Transport := some rt } : http.Client RT)]).get? i = clients.get? i := by
    intro i hi
    simp [List.getElem?_append_left hi]
  unfold Request.Do Request.selectClient
  simp only [hbuild, hrt, hcl, hc, hnew]
  cases hdo : env.clientDo { c with Transport := some rt } req w1 with
  | mk res w2 =>
    cases res with
    | error err => exact ⟨⟨[], rfl⟩, (hold _ hlen).trans hc, hold⟩
    | ok res => exact ⟨⟨[.handler res, .bodyClose], rfl⟩, (hold _ hlen).trans hc, hold⟩


/-- C3. `Do` returns the first failure of URL resolution, body acquisition,
request construction, transport call and handler, with the error value
unchanged, and makes no call after the failing one: when `buildUrl` fails,
the provider, the transport and the handler are not called; when the
provider fails, the request constructor, the transport and the handler are
not called; when the request constructor fails, the transport and the handler
are not called; when the transport call fails, the handler is not called;
and when all of these succeed, what the handler returns is what `Do` returns. -/
theorem Do_returns_first_failure (env : Env W B RT) (r : Request W B RT) (ctx : Option Nat)
    (clients : List (http.Client RT)) (w : W) :
    (∀ err, buildUrl env.Expand r.baseUrl r.path r.pathParams = .error err →
        r.Do env ctx clients w =
          ⟨.returned (some err), [.buildUrl r.baseUrl r.path r.pathParams], clients, w⟩) ∧
      (∀ u g err w', buildUrl env.Expand r.baseUrl r.path r.pathParams = .ok u →
        r.bodyGetter = some g → g w = (.error err, w') →
        r.Do env ctx clients w =
          ⟨.returned (some err), [.buildUrl r.baseUrl r.path r.pathParams, .bodyGetter],
            clients, w'⟩) ∧
      (∀ u body t w' err, buildUrl env.Expand r.baseUrl r.path r.pathParams = .ok u →
        r.acquireBody w = (.ok body, t, w') →
        (http.NewRequestWithContext ctx r.verb u.String body :
          Except GoError (http.Request W B)) = .error err →
        r.Do env ctx clients w =
          ⟨.returned (some err),
            .buildUrl r.baseUrl r.path r.pathParams :: t ++ [.newRequest r.verb u.String body],
            clients, w'⟩ ∧ (t = [] ∨ t = [.bodyGetter])) ∧
      (∀ req t w1 cl clients' c err w2, r.build env.Expand ctx w = (.ok req, t, w1) →
        r.selectClient env clients = .returned (cl, clients') → clients'.get? cl = some c →
        env.clientDo c req w1 = (.error err, w2) →
        r.Do env ctx clients w = ⟨.returned (some err), t ++ [.clientDo c req], clients', w2⟩) ∧
      (∀ req t w1 cl clients' c res w2 h, r.build env.Expand ctx w = (.ok req, t, w1) →
        r.selectClient env clients = .returned (cl, clients') → clients'.get? cl = some c →
        env.clientDo c req w1 = (.ok res, w2) → r.handler = some h →
        r.Do env ctx clients w =
          ⟨(h res w2).1, t ++ [.clientDo c req, .handler res, .bodyClose], clients',
            (h res w2).2⟩) := by
  refine ⟨?_, ?_, ?_, ?_, ?_⟩
  · intro err h
    simp [Request.Do, Request.build, h]
  · intro u g err w' hu hg hgw
    simp [Request.Do, Request.build, Request.acquireBody, hu, hg, hgw]
  · intro u body t w' err hu hb hn
    refine ⟨by simp [Request.Do, Request.build, hu, hb, hn], ?_⟩
    unfold Request.acquireBody at hb
    cases hg : r.bodyGetter with
    | none => rw [hg] at hb; simp at hb; exact Or.inl hb.2.1
    | some g =>
      rw [hg] at hb
      rcases hgw : g w with ⟨res, w''⟩
      simp only [hgw] at hb
      cases res with
      | error e => simp at hb
      | ok b => simp at hb; exact Or.inr hb.2.1.symm
  · intro req t w1 cl clients' c err w2 hb hs hc hd
    simp only [Request.Do, hb, hs, hc, hd]
  · intro req t w1 cl clients' c res w2 h hb hs hc hd hh
    simp only [Request.Do, hb, hs, hc, hd, hh]

end

namespace io

theorem Reader.fuel_cons (c : Str) (cs : List Str) (e : GoError) :
    Reader.fuel ⟨c :: cs, e⟩ = c.length + 1 + Reader.fuel ⟨cs, e⟩ := by
  simp [Reader.fuel]; omega

theorem Reader.fuel_pos (r : Reader) : 0 < r.fuel := by
  simp [Reader.fuel]

theorem copyLoop_spec (k : Nat) (hk : 0 < k) (fuel : Nat) (r : Reader) (dst : Str)
    (hf : r.fuel ≤ fuel) :
    copyLoop k fuel r dst =
      some ((dst ++ r.data, if r.term = .EOF then none else some r.term), ⟨[], r.term⟩) := by
  induction fuel generalizing r dst with
  | zero => have := r.fuel_pos; omega
  | succ fuel ih =>
    obtain ⟨chunks, term⟩ := r
    cases chunks with
    | nil =>
      by_cases he : term = .EOF
      · simp [copyLoop, Reader.Read, Reader.data, he]
      · simp [copyLoop, Reader.Read, Reader.data, he]
    | cons c cs =>
      rw [Reader.fuel_cons] at hf
      by_cases hc : c.length ≤ k
      · have h1 := ih ⟨cs, term⟩ (dst ++ c) (by omega)
        simp only [copyLoop, Reader.Read, hc, if_true]
        have hd : (if c.length > 0 then dst ++ c else dst) = dst ++ c := by
          split
          · rfl
          · have : c = [] := List.length_eq_zero.mp (by omega)
            simp [this]
        rw [hd, h1]
        simp [Reader.data]
      · have hlt : (c.drop k).length + k = c.length := by simp; omega
        have h1 := ih ⟨c.drop k :: cs, term⟩ (dst ++ c.take k)
          (by rw [Reader.fuel_cons]; omega)
        simp only [copyLoop, Reader.Read, hc, if_false]
        have hd : (if (c.take k).length > 0 then dst ++ c.take k else dst) = dst ++ c.take k := by
          split
          · rfl
          · have : c.take k = [] := List.length_eq_zero.mp (by omega)
            simp [this]
        rw [hd, h1]
        simp [Reader.data]
        rw [← List.append_assoc, List.take_append_drop]

theorem Copy_spec (r : Reader) :
    Copy r = ((r.data, if r.term = .EOF then none else some r.term), ⟨[], r.term⟩) := by
  unfold Copy
  rw [copyLoop_spec _ (by decide) _ _ _ (Nat.le_refl _)]
  simp

theorem ReadAll_spec (r : Reader) :
    ReadAll r = ((r.data, if r.term = .EOF then none else some r.term), ⟨[], r.term⟩) := by
  unfold ReadAll
  rw [copyLoop_spec _ (by decide) _ _ _ (Nat.le_refl _)]
  simp

theorem discardReadFromLoop_spec (b : Nat) (hb : 0 < b) (fuel : Nat) (r : Reader) (m : Nat)
    (n : Int) (hf : r.fuel ≤ fuel) :
    ∃ l' : LimitedReader,
      discardReadFromLoop b fuel ⟨r, (m : Int)⟩ n =
          some ((n + (min m r.data.length : Nat),
            if r.data.length < m ∧ r.term ≠ .EOF then some r.term else none), l') ∧
        l'.R.data = r.data.drop (min m r.data.length) ∧ l'.R.term = r.term := by
  induction fuel generalizing r m n with
  | zero => have := r.fuel_pos; omega
  | succ fuel ih =>
    obtain ⟨chunks, term⟩ := r
    by_cases hm : m = 0
    · subst hm
      refine ⟨⟨⟨chunks, term⟩, 0⟩, ?_, ?_, rfl⟩
      · simp [discardReadFromLoop, LimitedReader.Read]
      · simp
    · have hN : ¬ ((m : Int) ≤ 0) := by omega
      cases chunks with
      | nil =>
        refine ⟨⟨⟨[], term⟩, m⟩, ?_, by simp [Reader.data], rfl⟩
        by_cases he : term = .EOF
        · simp [discardReadFromLoop, LimitedReader.Read, hN, Reader.Read, Reader.data, he]
        · have hpos : 0 < m := by omega
          simp [discardReadFromLoop, LimitedReader.Read, hN, Reader.Read, Reader.data, he, hpos]
      | cons c cs =>
        rw [Reader.fuel_cons] at hf
        have hk : ∃ k : Nat, (if (b : Int) > (m : Int) then (m : Int).toNat else b) = k ∧
            0 < k ∧ k ≤ m := by
          by_cases h : (b : Int) > (m : Int)
          · exact ⟨m, by rw [if_pos h]; rfl, by omega, le_refl _⟩
          · exact ⟨b, by rw [if_neg h], by omega, by omega⟩
        obtain ⟨k, hkdef, hkpos, hkm⟩ := hk
        by_cases hc : c.length ≤ k
        · obtain ⟨l', h1, h2, h3⟩ := ih ⟨cs, term⟩ (m - c.length) (n + c.length) (by omega)
          refine ⟨l', ?_, ?_, h3⟩
          · simp only [discardReadFromLoop, LimitedReader.Read, hN, if_false, hkdef, Reader.Read, hc,
              if_true]
            have hcast : (m : Int) - (c.length : Int) = ((m - c.length : Nat) : Int) := by omega
            rw [hcast, h1]
            simp only [Reader.data, List.flatten_cons, List.length_append]
            congr 2
            · congr 1
              · have : min (m - c.length) cs.flatten.length + c.length =
                    min m (c.length + cs.flatten.length) := by omega
                omega
              · congr 1
                apply propext
                constructor
                · rintro ⟨h, h'⟩; exact ⟨by omega, h'⟩
                · rintro ⟨h, h'⟩; exact ⟨by omega, h'⟩
          · rw [h2]
            simp only [Reader.data, List.flatten_cons, List.length_append]
            have : min m (c.length + cs.flatten.length) =
                c.length + min (m - c.length) cs.flatten.length := by omega
            rw [this, List.drop_append]
        · have hlen : (c.drop k).length + k = c.length := by simp; omega
          have htl : (c.take k).length = k := by simp; omega
          obtain ⟨l', h1, h2, h3⟩ := ih ⟨c.drop k :: cs, term⟩ (m - k) (n + k)
            (by rw [Reader.fuel_cons]; omega)
          refine ⟨l', ?_, ?_, h3⟩
          · simp only [discardReadFromLoop, LimitedReader.Read, hN, if_false, hkdef, Reader.Read, hc]
            rw [htl]
            have hcast : (m : Int) - (k : Int) = ((m - k : Nat) : Int) := by omega
            rw [hcast, h1]
            simp only [Reader.data, List.flatten_cons, List.length_append]
            congr 2
            · congr 1
              · have : min (m - k) ((c.drop k).length + cs.flatten.length) + k =
                    min m (c.length + cs.flatten.length) := by omega
                omega
              · congr 1
                apply propext
                constructor
                · rintro ⟨h, h'⟩; exact ⟨by omega, h'⟩
                · rintro ⟨h, h'⟩; exact ⟨by omega, h'⟩
          · rw [h2]
            simp only [Reader.data, List.flatten_cons, List.length_append]
            have : min m (c.length + cs.flatten.length) =
                k + min (m - k) ((c.drop k).length + cs.flatten.length) := by omega
            rw [this, ← List.drop_drop]
            congr 1
            rw [List.drop_append_of_le_length (by omega)]

end io

theorem maxDiscardSize_eq : maxDiscardSize = 655360 := by decide

theorem io.CopyNDiscard_spec (r : io.Reader) (m : Nat) :
    ∃ r' : io.Reader,
      io.CopyNDiscard r (m : Int) =
          ((((min m r.data.length : Nat) : Int),
            if r.data.length < m then some r.term else none), r') ∧
        r'.data = r.data.drop (min m r.data.length) := by
  obtain ⟨l', h1, h2, _⟩ := io.discardReadFromLoop_spec 8192 (by decide) r.fuel r m 0 (Nat.le_refl _)
  refine ⟨l'.R, ?_, h2⟩
  simp only [io.CopyNDiscard, io.CopyDiscard, h1, Int.zero_add]
  by_cases hlt : r.data.length < m
  · have hne : ¬ ((min m r.data.length : Nat) : Int) = (m : Int) := by omega
    have hw : ((min m r.data.length : Nat) : Int) < (m : Int) := by omega
    rw [if_neg hne]
    by_cases he : r.term = .EOF
    · simp [hlt, he, hw]
    · simp [hlt, he, hw]
  · have heq : ((min m r.data.length : Nat) : Int) = (m : Int) := by omega
    rw [if_pos heq]
    simp [hlt, heq]

theorem consumeBody_spec (status : Int) (r : io.Reader) :
    ∃ r' : io.Reader,
      consumeBody ⟨status, some r⟩ =
          (.returned (if r.data.length < 655360 ∧ r.term ≠ .EOF then some r.term else none),
            some r') ∧
        r'.data = r.data.drop (min 655360 r.data.length) := by
  obtain ⟨r', h1, h2⟩ := io.CopyNDiscard_spec r maxDiscardSize
  rw [maxDiscardSize_eq] at h1 h2
  refine ⟨r', ?_, h2⟩
  simp only [consumeBody, maxDiscardSize_eq, h1]
  by_cases hlt : r.data.length < 655360
  · by_cases he : r.term = .EOF
    · simp [hlt, he]
    · simp [hlt, he]
  · simp [hlt]

section
variable {W B RT : Type}

/-- C7. For a response whose body yields `n` bytes and then a clean end of
stream, the default handler `consumeBody` returns nil and consumes exactly
the first `min(n, 655360)` bytes of the body, where `655360 = 640 KiB` is
`maxDiscardSize`. `Do` without an attached handler runs `consumeBody` on the
response the transport returned, whatever that response is: after building
the request it calls the transport on the request, then the handler on the
response, then closes the body, and returns what `consumeBody` returns for
that response; so for a response whose body ends cleanly `Do` returns nil. -/
theorem consumeBody_discards_up_to_cap (status : Int) (body : io.Reader)
    (hterm : body.term = .EOF) :
    maxDiscardSize = 655360 ∧
      (∃ rest : io.Reader,
        consumeBody ⟨status, some body⟩ = (.returned none, some rest) ∧
          rest.data = body.data.drop (min body.data.length 655360) ∧
          body.data.length - rest.data.length = min body.data.length 655360) ∧
      (∀ (env : Env W B RT) (r : Request W B RT) (ctx : Option Nat)
          (clients clients' : List (http.Client RT)) (w w1 w2 : W) (req : http.Request W B)
          (t : List (Event W B RT)) (cl : Nat) (c : http.Client RT) (res : http.Response),
        r.handler = none → r.build env.Expand ctx w = (.ok req, t, w1) →
        r.selectClient env clients = .returned (cl, clients') → clients'.get? cl = some c →
        env.clientDo c req w1 = (.ok res, w2) →
        r.Do env ctx clients w =
          ⟨(consumeBody res).1, t ++ [.clientDo c req, .handler res, .bodyClose], clients', w2⟩) ∧
      (∀ (env : Env W B RT) (r : Request W B RT) (ctx : Option Nat)
          (clients clients' : List (http.Client RT)) (w w1 w2 : W) (req : http.Request W B)
          (t : List (Event W B RT)) (cl : Nat) (c : http.Client RT),
        r.handler = none → r.build env.Expand ctx w = (.ok req, t, w1) →
        r.selectClient env clients = .returned (cl, clients') → clients'.get? cl = some c →
        env.clientDo c req w1 = (.ok ⟨status, some body⟩, w2) →
        r.Do env ctx clients w =
          ⟨.returned none,
            t ++ [.clientDo c req, .handler ⟨status, some body⟩, .bodyClose], clients', w2⟩) := by
  obtain ⟨r', h1, h2⟩ := consumeBody_spec status body
  have h1' : consumeBody ⟨status, some body⟩ = (.returned none, some r') := by
    rw [h1]; simp [hterm]
  have hdo : ∀ (env : Env W B RT) (r : Request W B RT) (ctx : Option Nat)
      (clients clients' : List (http.Client RT)) (w w1 w2 : W) (req : http.Request W B)
      (t : List (Event W B RT)) (cl : Nat) (c : http.Client RT) (res : http.Response),
      r.handler = none → r.build env.Expand ctx w = (.ok req, t, w1) →
      r.selectClient env clients = .returned (cl, clients') → clients'.get? cl = some c →
      env.clientDo c req w1 = (.ok res, w2) →
      r.Do env ctx clients w =
        ⟨(consumeBody res).1, t ++ [.clientDo c req, .handler res, .bodyClose], clients', w2⟩ := by
    intro env r ctx clients clients' w w1 w2 req t cl c res hh hb hs hc hd
    simp only [Request.Do, hb, hs, hc, hd, hh]
  refine ⟨maxDiscardSize_eq, ⟨r', h1', ?_, ?_⟩, hdo, ?_⟩
  · rw [h2, Nat.min_comm]
  · rw [h2, List.length_drop]; omega
  · intro env r ctx clients clients' w w1 w2 req t cl c hh hb hs hc hd
    rw [hdo env r ctx clients clients' w w1 w2 req t cl c _ hh hb hs hc hd, h1']

/-- C7 on a body of three pieces, `"ab"`, `""` and `"cde"`, ending cleanly:
`consumeBody` returns nil and leaves nothing unread, and `Do` without a
handler, on a transport that counts its calls and returns this body, returns
nil after exactly one transport call. -/
theorem consumeBody_discards_up_to_cap_witness :
    (⟨["ab".toList, [], "cde".toList], .EOF⟩ : io.Reader).term = .EOF ∧
      (∃ rest : io.Reader,
        consumeBody ⟨200, some ⟨["ab".toList, [], "cde".toList], .EOF⟩⟩ =
            (.returned none, some rest) ∧
          rest.data = []) ∧
      ((Get "http://e.com".toList : Request Nat Unit Unit).Do
          ⟨literalExpand, 0, fun _ _ w =>
            (.ok ⟨200, some ⟨["ab".toList, [], "cde".toList], .EOF⟩⟩, w + 1)⟩ (some 0)
          [⟨none, none, none, 0⟩] 0).result = .returned none ∧
      ((Get "http://e.com".toList : Request Nat Unit Unit).Do
          ⟨literalExpand, 0, fun _ _ w =>
            (.ok ⟨200, some ⟨["ab".toList, [], "cde".toList], .EOF⟩⟩, w + 1)⟩ (some 0)
          [⟨none, none, none, 0⟩] 0).world = 1 := by
  have h := @consumeBody_discards_up_to_cap Nat Unit Unit 200
    ⟨["ab".toList, [], "cde".toList], .EOF⟩ rfl
  obtain ⟨_, ⟨rest, h1, h2, _⟩, _, hdo⟩ := h
  have hb : ∃ req t, (Get "http://e.com".toList : Request Nat Unit Unit).build literalExpand
      (some 0) 0 = (.ok req, t, 0) := ⟨_, _, rfl⟩
  obtain ⟨req, t, hb⟩ := hb
  have hd := hdo
    ⟨literalExpand, 0, fun _ _ w =>
      (.ok ⟨200, some ⟨["ab".toList, [], "cde".toList], .EOF⟩⟩, w + 1)⟩
    (Get "http://e.com".toList : Request Nat Unit Unit) (some 0) [⟨none, none, none, 0⟩]
    [⟨none, none, none, 0⟩] 0 0 1 req t 0 ⟨none, none, none, 0⟩ rfl hb rfl rfl rfl
  refine ⟨rfl, ⟨rest, h1, by rw [h2]; decide⟩, ?_, ?_⟩
  · rw [hd]
  · rw [hd]

/-- C8. `ToString(sp)` on a response with a body: when the body ends cleanly,
it returns nil and assigns the entire body content to `*sp`; when a read
fails, it returns that error and leaves the program state, `*sp` included,
as it was before the call, however much of the body had been read. -/
theorem ToString_sets_only_on_success (sp : Ref W Str) (status : Int) (body : io.Reader)
    (w : W) :
    (body.term = .EOF →
        reply.ToString sp ⟨status, some body⟩ w = (.returned none, sp.set body.data w)) ∧
      (body.term ≠ .EOF →
        reply.ToString sp ⟨status, some body⟩ w = (.returned (some body.term), w)) ∧
      (∀ (r : Request W B RT), (r.IntoString sp).handler = some (reply.ToString sp)) := by
  refine ⟨?_, ?_, fun _ => rfl⟩
  · intro h
    simp [reply.ToString, io.Copy_spec, h]
  · intro h
    simp [reply.ToString, io.Copy_spec, h]

end

/-- C8 on a string variable holding `"old"`: a body `"he"`, `"llo"` that ends
cleanly leaves `"hello"` in it, the same body ending in a read error leaves
`"old"`. -/
theorem ToString_sets_only_on_success_witness :
    (reply.ToString (⟨id, fun v _ => v⟩ : Ref Str Str)
        ⟨200, some ⟨["he".toList, "llo".toList], .EOF⟩⟩ "old".toList =
          (.returned none, "hello".toList)) ∧
      (reply.ToString (⟨id, fun v _ => v⟩ : Ref Str Str)
        ⟨200, some ⟨["he".toList, "llo".toList], .external 7⟩⟩ "old".toList =
          (.returned (some (.external 7)), "old".toList)) :=
  ⟨((@ToString_sets_only_on_success Str Unit Unit ⟨id, fun v _ => v⟩ 200
      ⟨["he".toList, "llo".toList], .EOF⟩ "old".toList).1 rfl),
   ((@ToString_sets_only_on_success Str Unit Unit ⟨id, fun v _ => v⟩ 200
      ⟨["he".toList, "llo".toList], .external 7⟩ "old".toList).2.1 (by decide))⟩

namespace body

theorem NewReader_data (b : Str) : (NewReader b).data = b := by
  unfold NewReader io.Reader.data
  by_cases h : b = [] <;> simp [h]

theorem ReadAll_NewReader (b : Str) : (io.ReadAll (NewReader b)).1 = (b, none) := by
  rw [io.ReadAll_spec, NewReader_data]
  simp [NewReader]

theorem Heap.read_length (h : Heap) (s : Stream) (k : Nat) : (h.read s k).2.length = h.length := by
  unfold Heap.read
  cases h.get? s <;> simp

theorem Heap.reads_length (ks : List Nat) (h : Heap) (s : Stream) :
    (h.reads s ks).length = h.length := by
  unfold Heap.reads
  induction ks generalizing h with
  | nil => rfl
  | cons k ks ih => rw [List.foldl_cons, ih, Heap.read_length]

theorem Heap.readAll_fresh (h : Heap) (b : Str) :
    (Heap.readAll (h ++ [NewReader b]) h.length).1 = (b, none) := by
  unfold Heap.readAll
  have : (h ++ [NewReader b]).get? h.length = some (NewReader b) := by simp
  rw [this]
  exact ReadAll_NewReader b

theorem Bytes_FreshTwice (b : Str) (h : Heap) (ks : List Nat) : FreshTwice (Bytes b) b h ks := by
  refine ⟨h.length, ((h ++ [NewReader b]).reads h.length ks).length, h ++ [NewReader b],
    (h ++ [NewReader b]).reads h.length ks ++ [NewReader b], rfl, rfl, ?_, ?_, ?_, ?_, ?_⟩
  · rw [Heap.reads_length]; simp
  · simp
  · simp
  · exact Heap.readAll_fresh h b
  · exact Heap.readAll_fresh _ b

/-- C10, as amended. `Bytes`, `JSON` (for a value that marshals) and `Form`
yield a fresh stream on every call: two calls give two different new reader
objects, each of which read from its start yields the full content, whatever
was read from the first in between. `Reader(r)` yields on every call the one
stream `r` it was given and creates nothing, so what a later stream yields is
what earlier reads of `r` left. -/
theorem providers_yield_fresh_streams (h : Heap) (ks : List Nat) :
    (∀ b : Str, FreshTwice (Bytes b) b h ks) ∧
      (∀ (V : Type) (marshal : V → Except GoError Str) (v : V) (b : Str),
        marshal v = .ok b → FreshTwice (JSON marshal v) b h ks) ∧
      (∀ data : List (Str × List Str), FreshTwice (Form data) (Encode data) h ks) ∧
      (∀ r : Stream, Reader r h = (.ok r, h) ∧
        Reader r (h.reads r ks) = (.ok r, h.reads r ks)) := by
  refine ⟨fun b => Bytes_FreshTwice b h ks, ?_, ?_, fun r => ⟨rfl, rfl⟩⟩
  · intro V marshal v b hm
    have : JSON marshal v = Bytes b := by
      funext h'
      simp [JSON, Bytes, hm]
    rw [this]
    exact Bytes_FreshTwice b h ks
  · intro data
    exact Bytes_FreshTwice (Encode data) h ks

/-- C10 on the empty heap with one read of 2 bytes in between: `Bytes("abc")`
yields the objects 0 and 1, and `JSON` of a value that marshals to an empty JSON object
yields two fresh streams. -/
theorem providers_yield_fresh_streams_witness :
    FreshTwice (Bytes "abc".toList) "abc".toList [] [2] ∧
      FreshTwice (JSON (fun _ : Unit => .ok "\x7b\x7d".toList) ()) "\x7b\x7d".toList [] [2] :=
  ⟨(providers_yield_fresh_streams [] [2]).1 "abc".toList,
   (providers_yield_fresh_streams [] [2]).2.1 Unit (fun _ => .ok "\x7b\x7d".toList) () "\x7b\x7d".toList rfl⟩

/-- C10 fails for `Reader`: with a reader object holding `"abc"`, the first
call yields a stream that reads `"abc"`; once it is read, the second call
yields the same stream, which reads nothing. -/
theorem Reader_second_stream_is_drained :
    Reader 0 [NewReader "abc".toList] = (.ok 0, [NewReader "abc".toList]) ∧
      (Heap.readAll [NewReader "abc".toList] 0).1 = ("abc".toList, none) ∧
      Reader 0 (Heap.readAll [NewReader "abc".toList] 0).2 =
        (.ok 0, (Heap.readAll [NewReader "abc".toList] 0).2) ∧
      (Heap.readAll (Heap.readAll [NewReader "abc".toList] 0).2 0).1 = ([], none) ∧
      ¬ FreshTwice (Reader 0) "abc".toList [NewReader "abc".toList] [3] := by
  have h1 : Heap.readAll [NewReader "abc".toList] 0 =
      (("abc".toList, none), [⟨[], .EOF⟩]) := by
    simp [Heap.readAll, io.ReadAll_spec, NewReader, io.Reader.data]
  have h2 : Heap.readAll [(⟨[], .EOF⟩ : io.Reader)] 0 = (([], none), [⟨[], .EOF⟩]) := by
    simp [Heap.readAll, io.ReadAll_spec, io.Reader.data]
  refine ⟨rfl, by rw [h1], rfl, by rw [h1, h2], ?_⟩
  rintro ⟨s1, s2, h1', h3, hg1, hg2, hne, -⟩
  simp only [Reader, Prod.mk.injEq, Except.ok.injEq] at hg1 hg2
  exact hne (hg1.1.symm.trans hg2.1)

end body

section
variable {W V : Type}

/-- C4 (defect). For a status that is not accepted, a non-nil pointer
destination and a body that is read without error and decodes without error,
`CheckStatus` fills the destination and returns nil, not an error. -/
theorem CheckStatus_returns_nil_after_decoding (codec : Codec V) (p : Ref W V)
    (codes : List Int) (status : Int) (body : io.Reader) (w : W) (v' : V)
    (hstatus : status ∉ codes) (hterm : body.term = .EOF)
    (hdec : codec.unmarshalInto body.data (p.get w) = (none, v')) :
    CheckStatus codec (.pointer p) codes ⟨status, some body⟩ w = (.returned none, p.set v' w) := by
  have hany : (codes.any fun code => status == code) = false := by
    simp only [List.any_eq_false, beq_iff_eq]
    intro x hx heq
    exact hstatus (heq ▸ hx)
  simp [CheckStatus, hany, io.ReadAll_spec, hterm, hdec]

end

/-- C4 at accepted statuses 200 and 201, status 404 and a JSON body, with a
destination that keeps the raw JSON text: the handler returns nil. -/
theorem CheckStatus_returns_nil_after_decoding_witness :
    CheckStatus (⟨fun data _ => (none, data), fun _ => none⟩ : Codec Str)
        (.pointer (⟨id, fun v _ => v⟩ : Ref Str Str)) [200, 201]
        ⟨404, some ⟨["\x7b\"message\":\"not found\"\x7d".toList], .EOF⟩⟩ [] =
      (.returned none, "\x7b\"message\":\"not found\"\x7d".toList) :=
  CheckStatus_returns_nil_after_decoding _ _ [200, 201] 404
    ⟨["\x7b\"message\":\"not found\"\x7d".toList], .EOF⟩ [] _ (by decide) rfl (by simp [io.Reader.data])

/-! ## Further properties of the handlers and of `Do` -/

section
variable {W B RT V : Type}

/-- For an accepted status `CheckStatus` returns nil and changes nothing:
the body is not read and the destination is not written, whatever they are. -/
theorem CheckStatus_accepted_returns_nil (codec : Codec V) (val : Dest W V) (codes : List Int)
    (res : http.Response) (w : W) (h : res.StatusCode ∈ codes) :
    CheckStatus codec val codes res w = (.returned none, w) := by
  have hany : (codes.any fun code => res.StatusCode == code) = true := by
    simp only [List.any_eq_true, beq_iff_eq]
    exact ⟨_, h, rfl⟩
  simp [CheckStatus, hany]

/-- `CheckStatus` accepts 200 among 200 and 201. -/
theorem CheckStatus_accepted_returns_nil_witness :
    CheckStatus (⟨fun data _ => (none, data), fun _ => none⟩ : Codec Str)
        (.pointer (⟨id, fun v _ => v⟩ : Ref Str Str)) [200, 201]
        ⟨200, some ⟨["ok".toList], .EOF⟩⟩ "old".toList = (.returned none, "old".toList) :=
  CheckStatus_accepted_returns_nil _ _ [200, 201] ⟨200, some ⟨["ok".toList], .EOF⟩⟩ _ (by decide)

/-- For a status that is not accepted, `CheckStatus` with a nil destination or
on a response without body returns the error `unexpected status: <code>` and
changes nothing. -/
theorem CheckStatus_unexpected_status (codec : Codec V) (val : Dest W V) (codes : List Int)
    (res : http.Response) (w : W) (h : res.StatusCode ∉ codes)
    (hnil : res.Body = none ∨ val = .nil) :
    CheckStatus codec val codes res w =
      (.returned (some (.unexpectedStatus res.StatusCode)), w) := by
  have hany : (codes.any fun code => res.StatusCode == code) = false := by
    simp only [List.any_eq_false, beq_iff_eq]
    intro x hx heq
    exact h (heq ▸ hx)
  rcases hnil with hb | hv
  · simp [CheckStatus, hany, hb]
  · subst hv
    cases hb : res.Body <;> simp [CheckStatus, hany, hb]

/-- `CheckStatus(nil, 200)` on a 500 response returns the status error. -/
theorem CheckStatus_unexpected_status_witness :
    CheckStatus (⟨fun data _ => (none, data), fun _ => none⟩ : Codec Str) (.nil : Dest Str Str)
        [200] ⟨500, some ⟨["oops".toList], .EOF⟩⟩ [] =
      (.returned (some (.unexpectedStatus 500)), []) :=
  CheckStatus_unexpected_status _ _ [200] ⟨500, some ⟨["oops".toList], .EOF⟩⟩ _ (by decide)
    (Or.inr rfl)

/-- When the body stream fails with a read error before 655360 bytes were
delivered, `consumeBody` returns that error; when the failure would come
after 655360 bytes or more, `consumeBody` stops at the cap and returns nil. -/
theorem consumeBody_read_error (status : Int) (body : io.Reader) (h : body.term ≠ .EOF) :
    (body.data.length < 655360 →
        (consumeBody ⟨status, some body⟩).1 = .returned (some body.term)) ∧
      (655360 ≤ body.data.length → (consumeBody ⟨status, some body⟩).1 = .returned none) := by
  obtain ⟨r', h1, _⟩ := consumeBody_spec status body
  rw [h1]
  constructor
  · intro hlt
    simp [hlt, h]
  · intro hge
    have : ¬ body.data.length < 655360 := by omega
    simp [this]

/-- A body that fails after 3 bytes makes `consumeBody` return the failure. -/
theorem consumeBody_read_error_witness :
    (consumeBody ⟨200, some ⟨["abc".toList], .external 9⟩⟩).1 = .returned (some (.external 9)) :=
  (consumeBody_read_error 200 ⟨["abc".toList], .external 9⟩ (by decide)).1 (by decide)

/-- Without a transport override `Do` makes the call on the chosen client
itself: no client object is created and none is changed. -/
theorem Do_without_override_uses_chosen_client (env : Env W B RT) (r : Request W B RT)
    (ctx : Option Nat) (clients : List (http.Client RT)) (w : W)
    (h : r.roundTripper = none) :
    r.selectClient env clients = .returned (r.client.getD env.DefaultClient, clients) ∧
      (r.Do env ctx clients w).clients = clients := by
  have hs : r.selectClient env clients =
      .returned (r.client.getD env.DefaultClient, clients) := by
    unfold Request.selectClient
    rw [h]
    cases r.client <;> rfl
  refine ⟨hs, ?_⟩
  unfold Request.Do
  rw [hs]
  rcases r.build env.Expand ctx w with ⟨res, t, w1⟩
  cases res with
  | error err => rfl
  | ok req =>
    simp only []
    cases clients.get? (r.client.getD env.DefaultClient) with
    | none => rfl
    | some c =>
      simp only []
      rcases env.clientDo c req w1 with ⟨res, w2⟩
      cases res <;> rfl

/-- A request without override, run with one client, leaves that one client. -/
theorem Do_without_override_uses_chosen_client_witness :
    ((Get "http://e.com".toList : Request Unit Unit Nat).Do
        ⟨literalExpand, 0, fun _ _ w => (.error (.external 1), w)⟩ (some 0)
        [⟨some 3, none, none, 30⟩] ()).clients.length = 1 :=
  congrArg List.length
    (Do_without_override_uses_chosen_client
      ⟨literalExpand, 0, fun _ _ w => (.error (.external 1), w)⟩
      (Get "http://e.com".toList : Request Unit Unit Nat) (some 0) [⟨some 3, none, none, 30⟩] ()
      rfl).2

/-- `Header` overwrites: after `Header(key, value)` the header map holds `value`
under `key` and what it held before under every other name. -/
theorem Header_last_write_wins (r : Request W B RT) (key value name : Str) :
    (r.Header key value).headers.get name =
      if name = key then some value else r.headers.get name :=
  GoMap.get_set r.headers key value name

end

namespace url

open Encoding

/-! ## Bytes -/

theorem char_le_iff (a b : Char) : a ≤ b ↔ a.toNat ≤ b.toNat := Iff.rfl

theorem char_lt_iff (a b : Char) : a < b ↔ a.toNat < b.toNat := Iff.rfl

/-- The bytes `shouldEscape` leaves alone in a path. -/
theorem not_shouldEscape_path (c : Char) (h : shouldEscape c encodePath = false) :
    isAlpha c = true ∨ isDigit c = true ∨
      c ∈ ['-', '_', '.', '~', '$', '&', '+', ',', '/', ':', ';', '=', '@'] := by
  unfold shouldEscape at h
  by_cases h1 : (isAlpha c || isDigit c) = true
  · simp only [Bool.or_eq_true] at h1
    rcases h1 with h1 | h1
    · exact Or.inl h1
    · exact Or.inr (Or.inl h1)
  · right; right
    simp only [h1] at h
    by_cases h2 : c ∈ ['-', '_', '.', '~']
    · simp only [List.mem_cons, List.mem_singleton, List.not_mem_nil, or_false] at h2 ⊢
      tauto
    · by_cases h3 : c ∈ ['$', '&', '+', ',', '/', ':', ';', '=', '?', '@']
      · simp only [List.mem_cons, List.mem_singleton, List.not_mem_nil, or_false] at h3 ⊢
        have hq : c ≠ '?' := by
          rintro rfl
          revert h
          decide
        tauto
      · simp [h2, h3] at h

theorem alpha_range (c : Char) (h : isAlpha c = true) :
    (97 ≤ c.toNat ∧ c.toNat ≤ 122) ∨ (65 ≤ c.toNat ∧ c.toNat ≤ 90) := by
  simp only [isAlpha, decide_eq_true_eq, char_le_iff] at h
  exact h

theorem digit_range (c : Char) (h : isDigit c = true) : 48 ≤ c.toNat ∧ c.toNat ≤ 57 := by
  simp only [isDigit, decide_eq_true_eq, char_le_iff] at h
  exact h

theorem not_ctl_of_alpha (c : Char) (h : isAlpha c = true) : ¬ (c < ' ' ∨ c = Char.ofNat 0x7f) := by
  have := alpha_range c h
  rintro (h' | rfl)
  · rw [char_lt_iff] at h'
    have : ' '.toNat = 32 := rfl
    omega
  · revert h; decide

theorem not_ctl_of_digit (c : Char) (h : isDigit c = true) : ¬ (c < ' ' ∨ c = Char.ofNat 0x7f) := by
  have := digit_range c h
  rintro (h' | rfl)
  · rw [char_lt_iff] at h'
    have : ' '.toNat = 32 := rfl
    omega
  · revert h; decide

/-- A byte that is plain in a path is no control byte and none of `#?%`. -/
theorem plain_path_byte (c : Char) (h : shouldEscape c encodePath = false) :
    ¬ (c < ' ' ∨ c = Char.ofNat 0x7f) ∧ c ≠ '#' ∧ c ≠ '?' ∧ c ≠ '%' := by
  refine ⟨?_, ?_, ?_, ?_⟩
  · rcases not_shouldEscape_path c h with h1 | h1 | h1
    · exact not_ctl_of_alpha c h1
    · exact not_ctl_of_digit c h1
    · simp only [List.mem_cons, List.mem_singleton, List.not_mem_nil, or_false] at h1
      rcases h1 with rfl | rfl | rfl | rfl | rfl | rfl | rfl | rfl | rfl | rfl | rfl | rfl | rfl <;>
        decide
  all_goals
    rintro rfl
    revert h
    decide

/-- What a byte of a plain host is not, and that host encoding leaves it alone. -/
theorem plain_host_byte (c : Char)
    (h : (isAlpha c || isDigit c || decide (c ∈ ['-', '.', ':'])) = true) :
    ¬ (c < ' ' ∨ c = Char.ofNat 0x7f) ∧ c ≠ '#' ∧ c ≠ '?' ∧ c ≠ '%' ∧ c ≠ '/' ∧ c ≠ '@' ∧
      c ≠ '[' ∧ c ≠ ']' ∧ c ≠ '+' ∧ shouldEscape c encodeHost = false := by
  refine ⟨?_, ?_, ?_, ?_, ?_, ?_, ?_, ?_, ?_, ?_⟩
  · simp only [Bool.or_eq_true, decide_eq_true_eq] at h
    rcases h with (h1 | h1) | h1
    · exact not_ctl_of_alpha c h1
    · exact not_ctl_of_digit c h1
    · simp only [List.mem_cons, List.mem_singleton, List.not_mem_nil, or_false] at h1
      rcases h1 with rfl | rfl | rfl <;> decide
  case refine_10 =>
    simp only [Bool.or_eq_true, decide_eq_true_eq] at h
    rcases h with h1 | h1
    · unfold shouldEscape
      simp [h1]
    · simp only [List.mem_cons, List.mem_singleton, List.not_mem_nil, or_false] at h1
      rcases h1 with rfl | rfl | rfl <;> decide
  all_goals
    rintro rfl
    revert h
    decide

/-- What a byte of a plain scheme is. -/
theorem plain_scheme_byte (c : Char)
    (h : (decide ('a' ≤ c ∧ c ≤ 'z') || isDigit c || decide (c ∈ ['+', '-', '.'])) = true) :
    ¬ (c < ' ' ∨ c = Char.ofNat 0x7f) ∧ c ≠ '#' ∧ c ≠ ':' ∧ ¬ ('A' ≤ c ∧ c ≤ 'Z') ∧
      (isAlpha c = true ∨ (isDigit c = true ∨ c = '+' ∨ c = '-' ∨ c = '.')) := by
  simp only [Bool.or_eq_true, decide_eq_true_eq] at h
  rcases h with (h1 | h1) | h1
  · have ha : isAlpha c = true := by simp [isAlpha, h1]
    have hr : 97 ≤ c.toNat ∧ c.toNat ≤ 122 := by
      simpa only [char_le_iff] using h1
    refine ⟨not_ctl_of_alpha c ha, ?_, ?_, ?_, Or.inl ha⟩
    · rintro rfl; revert ha; decide
    · rintro rfl; revert ha; decide
    · rintro ⟨h2, h3⟩
      rw [char_le_iff] at h3
      have : 'Z'.toNat = 90 := rfl
      omega
  · have hr := digit_range c h1
    refine ⟨not_ctl_of_digit c h1, ?_, ?_, ?_, Or.inr (Or.inl h1)⟩
    · rintro rfl; revert h1; decide
    · rintro rfl; revert h1; decide
    · rintro ⟨h2, h3⟩
      rw [char_le_iff] at h2
      have : 'A'.toNat = 65 := rfl
      omega
  · simp only [List.mem_cons, List.mem_singleton, List.not_mem_nil, or_false] at h1
    rcases h1 with rfl | rfl | rfl <;> decide

end url

namespace strings

theorem Cut_of_not_mem (sep : Char) (s : Str) (h : sep ∉ s) : Cut sep s = (s, [], false) := by
  induction s with
  | nil => rfl
  | cons c cs ih =>
    have hc : c ≠ sep := fun e => h (e ▸ List.mem_cons_self _ _)
    have hcs : sep ∉ cs := fun e => h (List.mem_cons_of_mem _ e)
    simp [Cut, hc, ih hcs]

theorem Cut_append (sep : Char) (a b : Str) (h : sep ∉ a) : Cut sep (a ++ sep :: b) = (a, b, true) := by
  induction a with
  | nil => simp [Cut]
  | cons c cs ih =>
    have hc : c ≠ sep := fun e => h (e ▸ List.mem_cons_self _ _)
    have hcs : sep ∉ cs := fun e => h (List.mem_cons_of_mem _ e)
    simp [Cut, hc, ih hcs]

/-- What `Cut` returns is a split of its argument at a separator, or the
argument itself. -/
theorem Cut_spec (sep : Char) (s : Str) :
    ((Cut sep s).2.2 = true ∧ s = (Cut sep s).1 ++ sep :: (Cut sep s).2.1) ∨
      ((Cut sep s).2.2 = false ∧ s = (Cut sep s).1) := by
  induction s with
  | nil => right; exact ⟨rfl, rfl⟩
  | cons c cs ih =>
    by_cases hc : c = sep
    · left; subst hc; simp [Cut]
    · rcases ih with ⟨h1, h2⟩ | ⟨h1, h2⟩
      · left
        refine ⟨by simp [Cut, hc, h1], ?_⟩
        simp only [Cut, hc, if_false, List.cons_append]
        rw [← h2]
      · right
        refine ⟨by simp [Cut, hc, h1], ?_⟩
        simp only [Cut, hc, if_false]
        rw [← h2]

theorem IndexByte_of_not_mem (sep : Char) (s : Str) (h : sep ∉ s) : IndexByte sep s = none := by
  induction s with
  | nil => rfl
  | cons c cs ih =>
    have hc : c ≠ sep := fun e => h (e ▸ List.mem_cons_self _ _)
    have hcs : sep ∉ cs := fun e => h (List.mem_cons_of_mem _ e)
    simp [IndexByte, hc, ih hcs]

theorem IndexByte_append (sep : Char) (a b : Str) (h : sep ∉ a) :
    IndexByte sep (a ++ sep :: b) = some a.length := by
  induction a with
  | nil => simp [IndexByte]
  | cons c cs ih =>
    have hc : c ≠ sep := fun e => h (e ▸ List.mem_cons_self _ _)
    have hcs : sep ∉ cs := fun e => h (List.mem_cons_of_mem _ e)
    simp [IndexByte, hc, ih hcs]

theorem LastIndexByte_of_not_mem (sep : Char) (s : Str) (h : sep ∉ s) :
    LastIndexByte sep s = none := by
  induction s with
  | nil => rfl
  | cons c cs ih =>
    have hc : c ≠ sep := fun e => h (e ▸ List.mem_cons_self _ _)
    have hcs : sep ∉ cs := fun e => h (List.mem_cons_of_mem _ e)
    simp [LastIndexByte, hc, ih hcs]

theorem LastIndexByte_append (sep : Char) (a b : Str) (h : sep ∉ b) :
    LastIndexByte sep (a ++ sep :: b) = some a.length := by
  induction a with
  | nil => simp [LastIndexByte, LastIndexByte_of_not_mem sep b h]
  | cons c cs ih => simp [LastIndexByte, ih]

theorem Cut_fst_not_mem (sep : Char) (s : Str) : sep ∉ (Cut sep s).1 := by
  induction s with
  | nil => simp [Cut]
  | cons c cs ih =>
    by_cases hc : c = sep
    · simp [Cut, hc]
    · simp only [Cut, hc, if_false, List.mem_cons, not_or]
      exact ⟨fun e => hc e.symm, ih⟩

theorem forced_query_of_not_mem (s : Str) (h : '?' ∉ s) :
    (HasSuffix s ['?'] && decide (Count '?' s = 1)) = false := by
  have : Count '?' s = 0 := List.count_eq_zero.mpr h
  simp [this]

end strings

namespace url

open Encoding

theorem unescapeCheck_cons (mode : Encoding) (c : Char) (cs : Str) (n : Nat) (hp : Bool)
    (h : c ≠ '%') :
    unescapeCheck mode (c :: cs) n hp =
      if c = '+' then unescapeCheck mode cs n (decide (mode = encodeQueryComponent))
      else if (mode = encodeHost ∨ mode = encodeZone) ∧ c.toNat < 0x80 ∧
          shouldEscape c encodeHost = true then
        .error ("invalid character in host name ".toList ++ [c])
      else unescapeCheck mode cs n hp := by
  rcases cs with _ | ⟨a, _ | ⟨b, rest⟩⟩ <;> simp [unescapeCheck, h]

theorem unescapeCheck_plain (mode : Encoding) (s : Str) (n : Nat)
    (hs : ∀ c ∈ s, c ≠ '%' ∧ c ≠ '+' ∧
      ¬ ((mode = encodeHost ∨ mode = encodeZone) ∧ c.toNat < 0x80 ∧ shouldEscape c encodeHost = true)) :
    unescapeCheck mode s n false = .ok (n, false) := by
  induction s with
  | nil => rfl
  | cons c cs ih =>
    obtain ⟨h1, h2, h3⟩ := hs c (List.mem_cons_self _ _)
    have hcs := ih fun d hd => hs d (List.mem_cons_of_mem _ hd)
    rw [unescapeCheck_cons mode c cs n false h1, if_neg h2, if_neg h3, hcs]

theorem unescapeCheck_path (s : Str) (n : Nat) (hs : ∀ c ∈ s, c ≠ '%') :
    unescapeCheck encodePath s n false = .ok (n, false) := by
  induction s with
  | nil => rfl
  | cons c cs ih =>
    have h1 := hs c (List.mem_cons_self _ _)
    have hcs := ih fun d hd => hs d (List.mem_cons_of_mem _ hd)
    rw [unescapeCheck_cons encodePath c cs n false h1]
    by_cases hp : c = '+'
    · rw [if_pos hp]
      exact hcs
    · rw [if_neg hp, if_neg (by simp), hcs]

theorem unescape_path (s : Str) (hs : ∀ c ∈ s, c ≠ '%') : unescape s encodePath = .ok s := by
  simp [unescape, unescapeCheck_path s 0 hs]

theorem unescape_host (s : Str)
    (hs : ∀ c ∈ s, c ≠ '%' ∧ c ≠ '+' ∧ shouldEscape c encodeHost = false) :
    unescape s encodeHost = .ok s := by
  have := unescapeCheck_plain encodeHost s 0 fun c hc =>
    ⟨(hs c hc).1, (hs c hc).2.1, by simp [(hs c hc).2.2]⟩
  simp [unescape, this]

theorem escape_plain (mode : Encoding) (s : Str) (hs : ∀ c ∈ s, shouldEscape c mode = false) :
    escape s mode = s := by
  unfold escape
  have h1 : s.countP (fun c => shouldEscape c mode && decide (c = ' ' ∧ mode = encodeQueryComponent)) = 0 := by
    rw [List.countP_eq_zero]
    intro c hc
    simp [hs c hc]
  have h2 : s.countP (fun c => shouldEscape c mode && !decide (c = ' ' ∧ mode = encodeQueryComponent)) = 0 := by
    rw [List.countP_eq_zero]
    intro c hc
    simp [hs c hc]
  simp only [h1, h2, and_self, if_true]

theorem setPath_plain (u : URL) (p : Str) (hs : ∀ c ∈ p, shouldEscape c encodePath = false) :
    u.setPath p = .ok { u with Path := p, RawPath := [] } := by
  have h1 := unescape_path p fun c hc => (plain_path_byte c (hs c hc)).2.2.2
  simp [URL.setPath, h1, escape_plain encodePath p hs]

theorem EscapedPath_plain (u : URL) (hr : u.RawPath = [])
    (hs : ∀ c ∈ u.Path, shouldEscape c encodePath = false) : u.EscapedPath = u.Path := by
  have hne : u.Path ≠ ['*'] := by
    intro h
    have := hs '*' (by rw [h]; exact List.mem_singleton_self _)
    revert this
    decide
  simp [URL.EscapedPath, hr, hne, escape_plain encodePath _ hs]

theorem getSchemeLoop_scheme (raw rest : Str) (S pre : Str)
    (hraw : raw = pre ++ S ++ ':' :: rest)
    (hS : ∀ c ∈ S, isAlpha c = true ∨ (isDigit c = true ∨ c = '+' ∨ c = '-' ∨ c = '.'))
    (hpre : pre = [] → ∃ c S', S = c :: S' ∧ isAlpha c = true) :
    getSchemeLoop raw pre.length (S ++ ':' :: rest) = .ok (pre ++ S, rest) := by
  induction S generalizing pre with
  | nil =>
    have hne : pre ≠ [] := by
      intro h
      obtain ⟨c, S', h', _⟩ := hpre h
      cases h'
    have hlen : pre.length ≠ 0 := by
      intro h
      exact hne (List.length_eq_zero.mp h)
    have h1 : isAlpha ':' = false := by decide
    have h2 : ¬ (isDigit ':' = true ∨ ':' = '+' ∨ ':' = '-' ∨ ':' = '.') := by decide
    simp only [List.nil_append, getSchemeLoop, h1, h2, if_false, if_true, hlen,
      Bool.false_eq_true, List.append_nil]
    rw [hraw]
    simp
  | cons c S' ih =>
    have hc := hS c (List.mem_cons_self _ _)
    have hS' : ∀ d ∈ S', isAlpha d = true ∨ (isDigit d = true ∨ d = '+' ∨ d = '-' ∨ d = '.') :=
      fun d hd => hS d (List.mem_cons_of_mem _ hd)
    have hrec := ih (pre ++ [c]) (by rw [hraw]; simp) hS' (by simp)
    simp only [List.length_append, List.length_singleton, List.append_assoc,
      List.singleton_append] at hrec
    by_cases ha : isAlpha c = true
    · simp only [List.cons_append, getSchemeLoop, ha, if_true]
      exact hrec
    · have hd : isDigit c = true ∨ c = '+' ∨ c = '-' ∨ c = '.' := hc.resolve_left ha
      have hlen : pre.length ≠ 0 := by
        intro h
        obtain ⟨c', S'', h', ha'⟩ := hpre (List.length_eq_zero.mp h)
        cases h'
        exact ha ha'
      simp only [List.cons_append, getSchemeLoop, ha, hd, if_true, if_false, hlen,
        Bool.false_eq_true]
      exact hrec

/-- What `plainScheme` says of its argument. -/
theorem plainScheme_iff (S : Str) (h : plainScheme S = true) :
    S ≠ [] ∧ (∃ c S', S = c :: S' ∧ isAlpha c = true) ∧
      ∀ c ∈ S, (decide ('a' ≤ c ∧ c ≤ 'z') || isDigit c || decide (c ∈ ['+', '-', '.'])) = true := by
  cases S with
  | nil => simp [plainScheme] at h
  | cons c cs =>
    simp only [plainScheme, Bool.and_eq_true, List.all_eq_true] at h
    refine ⟨by simp, ⟨c, cs, rfl, ?_⟩, ?_⟩
    · have := h.1
      simp only [decide_eq_true_eq] at this
      simp [isAlpha, this]
    · intro d hd
      rcases List.mem_cons.mp hd with rfl | hd
      · simp [h.1]
      · exact h.2 d hd

theorem getScheme_plain (S rest : Str) (h : plainScheme S = true) :
    getScheme (S ++ ':' :: rest) = .ok (S, rest) := by
  obtain ⟨_, hhead, hall⟩ := plainScheme_iff S h
  have := getSchemeLoop_scheme (S ++ ':' :: rest) rest S [] (by simp)
    (fun c hc => (plain_scheme_byte c (hall c hc)).2.2.2.2) (fun _ => hhead)
  simpa [getScheme] using this

theorem ToLower_plain (S : Str) (h : plainScheme S = true) : strings.ToLower S = S := by
  obtain ⟨_, _, hall⟩ := plainScheme_iff S h
  unfold strings.ToLower
  conv_rhs => rw [← List.map_id S]
  apply List.map_congr_left
  intro c hc
  have := (plain_scheme_byte c (hall c hc)).2.2.2.1
  simp [this]

theorem validOptionalPort_digits (port : Str) (h : ∀ b ∈ port, isDigit b = true) :
    validOptionalPort (':' :: port) = true := by
  simp only [validOptionalPort, decide_True, Bool.true_and, List.all_eq_true, Bool.not_eq_true',
    decide_eq_false_iff_not]
  intro b hb
  have := digit_range b (h b hb)
  have h0 : '0'.toNat = 48 := rfl
  have h9 : '9'.toNat = 57 := rfl
  rintro (h' | h')
  · rw [char_lt_iff] at h'
    omega
  · have h'' : '9' < b := h'
    rw [char_lt_iff] at h''
    omega

/-- What `plainHost` says of its argument: its bytes, and that a `:` in it is
followed by a port that `parseHost` accepts and `removeEmptyPort` keeps. -/
theorem plainHost_iff (H : Str) (h : plainHost H = true) :
    H ≠ [] ∧ (∀ c ∈ H, (isAlpha c || isDigit c || decide (c ∈ ['-', '.', ':'])) = true) ∧
      (strings.LastIndexByte ':' H = none ∨
        ∃ i, strings.LastIndexByte ':' H = some i ∧ validOptionalPort (H.drop i) = true ∧
          H.getLast? ≠ some ':') := by
  simp only [plainHost, Bool.and_eq_true, List.all_eq_true, decide_eq_true_eq, Bool.or_eq_true,
    Bool.not_eq_true'] at h
  obtain ⟨⟨hne, hname⟩, hport⟩ := h
  have hname' : ∀ c ∈ (strings.Cut ':' H).1,
      (isAlpha c || isDigit c || decide (c ∈ ['-', '.', ':'])) = true := by
    intro c hc
    have := hname c hc
    simp only [Bool.or_eq_true, decide_eq_true_eq, List.mem_cons, List.mem_singleton,
      List.not_mem_nil, or_false] at this ⊢
    tauto
  rcases strings.Cut_spec ':' H with ⟨hfound, hsplit⟩ | ⟨hfound, hsplit⟩
  · rw [hfound] at hport
    simp only [Bool.true_eq_false, false_or] at hport
    obtain ⟨hpne, hdig⟩ := hport
    generalize (strings.Cut ':' H).1 = name at hname' hsplit
    generalize (strings.Cut ':' H).2.1 = port at hpne hdig hsplit
    subst hsplit
    have hnocolon : ':' ∉ port := by
      intro hm
      have := hdig _ hm
      revert this
      decide
    refine ⟨by simp, ?_, Or.inr ⟨name.length, ?_, ?_, ?_⟩⟩
    · intro c hc
      simp only [List.mem_append, List.mem_cons] at hc
      rcases hc with hc | rfl | hc
      · exact hname' c hc
      · decide
      · simp [hdig c hc]
    · exact strings.LastIndexByte_append ':' _ _ hnocolon
    · simp only [List.drop_left]
      exact validOptionalPort_digits _ hdig
    · rw [List.getLast?_append_of_ne_nil _ (by simp)]
      cases port with
      | nil => exact absurd rfl hpne
      | cons d ds =>
        rw [List.getLast?_cons_cons]
        intro hl
        exact hnocolon (List.mem_of_getLast?_eq_some hl)
  · have hnot : ':' ∉ H := by
      rw [hsplit]
      exact strings.Cut_fst_not_mem ':' H
    refine ⟨?_, ?_, Or.inl (strings.LastIndexByte_of_not_mem ':' H hnot)⟩
    · rw [hsplit]; exact hne
    · intro c hc
      rw [hsplit] at hc
      exact hname' c hc

theorem parseAuthority_plain (H : Str) (h : plainHost H = true) :
    parseAuthority H = .ok (none, H) := by
  obtain ⟨_, hall, hport⟩ := plainHost_iff H h
  have hat : '@' ∉ H := fun hm => (plain_host_byte _ (hall _ hm)).2.2.2.2.2.1 rfl
  have hbr : strings.HasPrefix H ['['] = false := by
    cases H with
    | nil => rfl
    | cons c cs =>
      have : c ≠ '[' := (plain_host_byte _ (hall _ (List.mem_cons_self _ _))).2.2.2.2.2.2.1
      simp [strings.HasPrefix, List.isPrefixOf, Ne.symm this]
  have hun : unescape H encodeHost = .ok H :=
    unescape_host H fun c hc =>
      ⟨(plain_host_byte c (hall c hc)).2.2.2.1, (plain_host_byte c (hall c hc)).2.2.2.2.2.2.2.2.1,
        (plain_host_byte c (hall c hc)).2.2.2.2.2.2.2.2.2⟩
  have hph : parseHost H = .ok H := by
    rcases hport with hnone | ⟨i, hi, hvalid, _⟩
    · simp [parseHost, hbr, hnone, hun]
    · simp [parseHost, hbr, hi, hvalid, hun]
  simp [parseAuthority, strings.LastIndexByte_of_not_mem '@' H hat, hph]

/-- What `plainPath` says of a non-empty argument. -/
theorem plainPath_iff (P : Str) (h : plainPath P = true) (hne : P ≠ []) :
    (∃ P', P = '/' :: P' ∧ P'.head? ≠ some '/') ∧
      (∀ c ∈ P, shouldEscape c encodePath = false) ∧
      ∀ s ∈ segments P, s ≠ ['.'] ∧ s ≠ ['.', '.'] := by
  simp only [plainPath, Bool.or_eq_true, decide_eq_true_eq, hne, false_or, Bool.and_eq_true,
    List.all_eq_true, Bool.not_eq_true', ne_eq] at h
  obtain ⟨⟨⟨h1, h2⟩, h3⟩, h4⟩ := h
  refine ⟨?_, h3, fun s hs => by simpa using h4 s hs⟩
  cases P with
  | nil => exact absurd rfl hne
  | cons c P' =>
    simp only [List.head?_cons, Option.some.injEq] at h1
    subst h1
    exact ⟨P', rfl, by simpa using h2⟩

theorem plainPath_bytes (P : Str) (h : plainPath P = true) :
    ∀ c ∈ P, shouldEscape c encodePath = false := by
  by_cases hne : P = []
  · subst hne; simp
  · exact (plainPath_iff P h hne).2.1

/-- The URL `Parse` makes of a plain scheme, host and path. -/
theorem parse_plain (S H P : Str) (hS : plainScheme S = true) (hH : plainHost H = true)
    (hP : plainPath P = true) :
    parse (S ++ (':' :: '/' :: '/' :: (H ++ P))) false = .ok { Scheme := S, Host := H, Path := P } := by
  obtain ⟨hSne, ⟨c0, S0, hS0, hc0⟩, hSall⟩ := plainScheme_iff S hS
  obtain ⟨hHne, hHall, _⟩ := plainHost_iff H hH
  have hPall := plainPath_bytes P hP
  have hctl : stringContainsCTLByte (S ++ (':' :: '/' :: '/' :: (H ++ P))) = false := by
    simp only [stringContainsCTLByte, List.any_eq_false, decide_eq_true_eq]
    intro c hc
    simp only [List.mem_append, List.mem_cons] at hc
    rcases hc with hc | rfl | rfl | rfl | hc | hc
    · exact (plain_scheme_byte c (hSall c hc)).1
    · decide
    · decide
    · decide
    · exact (plain_host_byte c (hHall c hc)).1
    · exact (plain_path_byte c (hPall c hc)).1
  have hstar : S ++ (':' :: '/' :: '/' :: (H ++ P)) ≠ ['*'] := by
    rw [hS0]
    intro h
    simp only [List.cons_append, List.cons.injEq] at h
    have := h.1
    subst this
    revert hc0
    decide
  have hq : '?' ∉ '/' :: '/' :: (H ++ P) := by
    intro hm
    simp only [List.mem_append, List.mem_cons] at hm
    rcases hm with hm | hm | hm | hm
    · revert hm; decide
    · revert hm; decide
    · exact (plain_host_byte _ (hHall _ hm)).2.2.1 rfl
    · exact (plain_path_byte _ (hPall _ hm)).2.2.1 rfl
  have hslashH : '/' ∉ H := fun hm => (plain_host_byte _ (hHall _ hm)).2.2.2.2.1 rfl
  have hauth : (match strings.IndexByte '/' (H ++ P) with
        | some i => (H ++ P).take i
        | none => H ++ P) = H ∧
      (match strings.IndexByte '/' (H ++ P) with
        | some i => (H ++ P).drop i
        | none => []) = P := by
    by_cases hne : P = []
    · subst hne
      simp [strings.IndexByte_of_not_mem '/' H hslashH]
    · obtain ⟨⟨P', hP', _⟩, _, _⟩ := plainPath_iff P hP hne
      subst hP'
      simp [strings.IndexByte_append '/' H P' hslashH]
  unfold parse
  rw [hctl]
  simp only [Bool.false_eq_true, if_false, hstar, and_false]
  rw [getScheme_plain S _ hS]
  simp only [ToLower_plain S hS, strings.forced_query_of_not_mem _ hq,
    strings.Cut_of_not_mem '?' _ hq, Bool.false_eq_true, if_false]
  have hp1 : strings.HasPrefix ('/' :: '/' :: (H ++ P)) ['/'] = true := by
    simp [strings.HasPrefix, List.isPrefixOf]
  have hp2 : strings.HasPrefix ('/' :: '/' :: (H ++ P)) ['/', '/'] = true := by
    simp [strings.HasPrefix, List.isPrefixOf]
  simp only [hp1, hp2, Bool.not_true, Bool.false_eq_true, false_and, if_false, ne_eq, hSne,
    not_false_eq_true, true_or, and_self, if_true]
  have hdrop : List.drop 2 ('/' :: '/' :: (H ++ P)) = H ++ P := rfl
  rw [hdrop, hauth.1, hauth.2, parseAuthority_plain H hH]
  simp only []
  rw [setPath_plain _ P hPall]

theorem Parse_plain (S H P : Str) (hS : plainScheme S = true) (hH : plainHost H = true)
    (hP : plainPath P = true) :
    Parse (S ++ (':' :: '/' :: '/' :: (H ++ P))) = .ok { Scheme := S, Host := H, Path := P } := by
  obtain ⟨_, _, hSall⟩ := plainScheme_iff S hS
  obtain ⟨_, hHall, _⟩ := plainHost_iff H hH
  have hPall := plainPath_bytes P hP
  have hh : '#' ∉ S ++ (':' :: '/' :: '/' :: (H ++ P)) := by
    intro hm
    simp only [List.mem_append, List.mem_cons] at hm
    rcases hm with hm | hm | hm | hm | hm | hm
    · exact (plain_scheme_byte _ (hSall _ hm)).2.1 rfl
    · revert hm; decide
    · revert hm; decide
    · revert hm; decide
    · exact (plain_host_byte _ (hHall _ hm)).2.1 rfl
    · exact (plain_path_byte _ (hPall _ hm)).2.1 rfl
  unfold Parse
  rw [strings.Cut_of_not_mem '#' _ hh]
  simp only [parse_plain S H P hS hH hP, if_true]

/-- The reference `Parse` makes of a plain path. -/
theorem Parse_plainPath (P : Str) (hP : plainPath P = true) : Parse P = .ok { Path := P } := by
  by_cases hne : P = []
  · subst hne
    rfl
  · obtain ⟨⟨P', hP', hhead⟩, hall, _⟩ := plainPath_iff P hP hne
    have hh : '#' ∉ P := fun hm => (plain_path_byte _ (hall _ hm)).2.1 rfl
    have hq : '?' ∉ P := fun hm => (plain_path_byte _ (hall _ hm)).2.2.1 rfl
    have hctl : stringContainsCTLByte P = false := by
      simp only [stringContainsCTLByte, List.any_eq_false, decide_eq_true_eq]
      exact fun c hc => (plain_path_byte c (hall c hc)).1
    have hstar : P ≠ ['*'] := by
      rw [hP']
      intro h
      simp only [List.cons.injEq] at h
      exact absurd h.1 (by decide)
    have hsch : getScheme P = .ok ([], P) := by
      rw [hP']
      have h1 : isAlpha '/' = false := by decide
      have h2 : ¬ (isDigit '/' = true ∨ '/' = '+' ∨ '/' = '-' ∨ '/' = '.') := by decide
      have h3 : ¬ ('/' = ':') := by decide
      simp only [getScheme, getSchemeLoop, h1, h2, h3, if_false, Bool.false_eq_true]
    have hp1 : strings.HasPrefix P ['/'] = true := by
      rw [hP']
      simp [strings.HasPrefix, List.isPrefixOf]
    have hp2 : strings.HasPrefix P ['/', '/'] = false := by
      rw [hP']
      cases P' with
      | nil => simp [strings.HasPrefix, List.isPrefixOf]
      | cons d ds =>
        have : d ≠ '/' := by simpa using hhead
        simp [strings.HasPrefix, List.isPrefixOf, Ne.symm this]
    have hlow : strings.ToLower [] = [] := rfl
    unfold Parse
    rw [strings.Cut_of_not_mem '#' _ hh]
    simp only [if_true]
    unfold parse
    rw [hctl]
    simp only [Bool.false_eq_true, if_false, hstar, and_false, hsch, hlow,
      strings.forced_query_of_not_mem _ hq, strings.Cut_of_not_mem '?' _ hq, hp1, hp2,
      Bool.not_true, false_and, ne_eq, not_true_eq_false, and_false]
    rw [setPath_plain _ P hall]

theorem segments_Cut (s : Str) :
    segments s =
      if (strings.Cut '/' s).2.2 then (strings.Cut '/' s).1 :: segments (strings.Cut '/' s).2.1
      else [(strings.Cut '/' s).1] := by
  induction s with
  | nil => rfl
  | cons c cs ih =>
    by_cases hc : c = '/'
    · subst hc
      simp [segments, strings.Cut]
    · by_cases hf : (strings.Cut '/' cs).2.2 = true
      · rw [if_pos hf] at ih
        simp only [segments, strings.Cut, hc, if_false, ih, hf, if_true]
      · rw [if_neg hf] at ih
        simp only [segments, strings.Cut, hc, if_false, ih, hf, Bool.false_eq_true]

theorem resolveStep_plain (elem dst : Str) (h1 : elem ≠ ['.']) (h2 : elem ≠ ['.', '.']) :
    resolveStep elem dst false = (dst ++ ['/'] ++ elem, false) := by
  simp [resolveStep, h1, h2]

/-- On a rest without `.` and `..` elements the loop of `resolvePath` appends
a `/` and the rest. -/
theorem resolveLoop_plain (fuel : Nat) (R dst : Str) (hf : R.length < fuel)
    (hR : ∀ s ∈ segments R, s ≠ ['.'] ∧ s ≠ ['.', '.']) :
    ∃ e, resolveLoop fuel R dst false = some (dst ++ '/' :: R, e) ∧ e ≠ ['.'] ∧ e ≠ ['.', '.'] := by
  induction fuel generalizing R dst with
  | zero => omega
  | succ fuel ih =>
    rw [segments_Cut] at hR
    rcases strings.Cut_spec '/' R with ⟨hfound, hsplit⟩ | ⟨hfound, hsplit⟩
    · rw [hfound] at hR
      simp only [if_true, List.mem_cons] at hR
      have he := hR _ (Or.inl rfl)
      have hlen : (strings.Cut '/' R).2.1.length < fuel := by
        have := congrArg List.length hsplit
        simp only [List.length_append, List.length_cons] at this
        omega
      obtain ⟨e, h1, h2⟩ := ih (strings.Cut '/' R).2.1 (dst ++ ['/'] ++ (strings.Cut '/' R).1) hlen
        (fun s hs => hR s (Or.inr hs))
      refine ⟨e, ?_, h2⟩
      simp only [resolveLoop, resolveStep_plain _ _ he.1 he.2, hfound, if_true]
      rw [h1]
      congr 2
      conv_rhs => rw [hsplit]
      simp
    · rw [hfound] at hR
      simp only [Bool.false_eq_true, if_false, List.mem_singleton] at hR
      have he := hR _ rfl
      refine ⟨(strings.Cut '/' R).1, ?_, he⟩
      simp only [resolveLoop, resolveStep_plain _ _ he.1 he.2, hfound, Bool.false_eq_true, if_false]
      congr 2
      conv_rhs => rw [hsplit]
      simp

/-- On an empty base and a plain path `resolvePath` returns that path. -/
theorem resolvePath_plain (P : Str) (hP : plainPath P = true) : resolvePath [] P = P := by
  by_cases hne : P = []
  · subst hne
    rfl
  · obtain ⟨⟨P', hP', hhead⟩, _, hseg⟩ := plainPath_iff P hP hne
    subst hP'
    have hseg' : ∀ s ∈ segments P', s ≠ ['.'] ∧ s ≠ ['.', '.'] := by
      intro s hs
      apply hseg
      simp [segments, hs]
    obtain ⟨e, h1, h2, h3⟩ := resolveLoop_plain (P'.length + 1) P' ['/'] (by omega) hseg'
    have hstep : resolveStep [] ['/'] true = (['/'], false) := by decide
    have hloop : resolveLoop (('/' :: P').length + 1) ('/' :: P') ['/'] true =
        some ('/' :: '/' :: P', e) := by
      simp only [List.length_cons, resolveLoop, strings.Cut, if_true, hstep]
      exact h1
    simp only [resolvePath, ne_eq, not_true_eq_false, if_false, hloop, h2, h3, or_self,
      List.cons_ne_nil, reduceCtorEq]
    simp

/-- The fuel `resolvePath` gives its loop is enough on every input. -/
theorem resolveLoop_isSome (fuel : Nat) (R dst : Str) (first : Bool) (hf : R.length < fuel) :
    (resolveLoop fuel R dst first).isSome = true := by
  induction fuel generalizing R dst first with
  | zero => omega
  | succ fuel ih =>
    rcases strings.Cut_spec '/' R with ⟨hfound, hsplit⟩ | ⟨hfound, _⟩
    · have hlen : (strings.Cut '/' R).2.1.length < fuel := by
        have := congrArg List.length hsplit
        simp only [List.length_append, List.length_cons] at this
        omega
      simp only [resolveLoop, hfound, if_true]
      exact ih _ _ _ hlen
    · simp [resolveLoop, hfound]

theorem ResolveReference_plain (S H P : Str) (hP : plainPath P = true) :
    URL.ResolveReference { Scheme := S, Host := H } { Path := P } =
      { Scheme := S, Host := H, Path := P } := by
  have hall := plainPath_bytes P hP
  have h1 : URL.EscapedPath { Scheme := S, Host := H } = [] := rfl
  have h2 : URL.EscapedPath { Path := P } = P := EscapedPath_plain _ rfl hall
  by_cases hne : P = []
  · subst hne
    rfl
  · simp only [URL.ResolveReference, ne_eq, not_true_eq_false, false_or, if_false, hne,
      false_and, if_true, h1, h2, resolvePath_plain P hP, URL.setPathIgnoringError,
      setPath_plain _ P hall, or_self]

theorem String_plain (S H P : Str) (hS : S ≠ []) (hH : plainHost H = true)
    (hP : plainPath P = true) :
    URL.String { Scheme := S, Host := H, Path := P } = S ++ (':' :: '/' :: '/' :: (H ++ P)) := by
  obtain ⟨hHne, hHall, _⟩ := plainHost_iff H hH
  have hall := plainPath_bytes P hP
  have h2 : URL.EscapedPath { Scheme := S, Host := H, Path := P } = P :=
    EscapedPath_plain _ rfl hall
  have h3 : escape H encodeHost = H :=
    escape_plain encodeHost H fun c hc => (plain_host_byte c (hHall c hc)).2.2.2.2.2.2.2.2.2
  have h4 : ¬ (P ≠ [] ∧ P.head? ≠ some '/' ∧ H ≠ []) := by
    by_cases hne : P = []
    · simp [hne]
    · obtain ⟨⟨P', hP', _⟩, _, _⟩ := plainPath_iff P hP hne
      subst hP'
      simp
  have h4' : ¬ (¬ P = [] ∧ ¬ List.head? P = some '/') := by
    by_cases hne : P = []
    · simp [hne]
    · obtain ⟨⟨P', hP', _⟩, _, _⟩ := plainPath_iff P hP hne
      subst hP'
      simp
  have h5 : (S ++ [':'] ++ ['/', '/'] ++ H).length ≠ 0 := by
    simp
  simp only [URL.String, ne_eq, hS, not_false_eq_true, if_true, true_or, Bool.false_eq_true,
    false_and, if_false, hHne, h2, h3, h4, h5, not_true_eq_false, or_self, false_or]
  simp [h4']

theorem removeEmptyPort_plain (H : Str) (hH : plainHost H = true) : http.removeEmptyPort H = H := by
  obtain ⟨_, hall, hport⟩ := plainHost_iff H hH
  have hbr : ']' ∉ H := fun hm => (plain_host_byte _ (hall _ hm)).2.2.2.2.2.2.2.1 rfl
  rcases hport with hnone | ⟨i, hi, _, hlast⟩
  · simp [http.removeEmptyPort, hnone]
  · simp [http.removeEmptyPort, hi, strings.LastIndexByte_of_not_mem ']' H hbr,
      strings.TrimSuffix, hlast]

end url

section
variable {W B RT : Type}

theorem plain_concat (scheme host path : Str) :
    scheme ++ "://".toList ++ host ++ path = scheme ++ (':' :: '/' :: '/' :: (host ++ path)) := by
  have : "://".toList = [':', '/', '/'] := rfl
  rw [this]
  simp

/-- C1, as amended. For a base URL `scheme://host` with a plain scheme and a
plain host (no port, user information, path, query or fragment) and a template
whose expansion is a plain absolute path (empty, or starting with one `/`,
made of bytes that need no escaping in a path, with no `.` or `..` element),
`buildUrl` succeeds with a URL whose string form is the base URL followed by
the expansion, byte for byte; and `build` then makes a request whose URL, the
one `Do` hands to the transport, has the same string form. -/
theorem buildUrl_concatenates_plain (Expand : Expander) (r : Request W B RT)
    (scheme host escaped unescaped : Str) (ctx : Nat) (w w' : W) (body : Option B)
    (tb : List (Event W B RT))
    (hbase : r.baseUrl = scheme ++ "://".toList ++ host)
    (hscheme : url.plainScheme scheme = true) (hhost : url.plainHost host = true)
    (hexpand : Expand r.path r.pathParams = .ok (escaped, unescaped))
    (hpath : url.plainPath unescaped = true)
    (hverb : http.validMethod r.verb = true)
    (hbody : r.acquireBody w = (.ok body, tb, w')) :
    (∃ u, buildUrl Expand r.baseUrl r.path r.pathParams = .ok u ∧
        u.String = r.baseUrl ++ unescaped) ∧
      (∃ req t, r.build Expand (some ctx) w = (.ok req, t, w') ∧
        req.URL.String = r.baseUrl ++ unescaped) := by
  obtain ⟨hSne, _, _⟩ := url.plainScheme_iff scheme hscheme
  have hempty : url.plainPath [] = true := rfl
  have hb : url.Parse r.baseUrl = .ok { Scheme := scheme, Host := host } := by
    rw [hbase]
    have := url.Parse_plain scheme host [] hscheme hhost hempty
    simpa [plain_concat] using this
  have hu : buildUrl Expand r.baseUrl r.path r.pathParams =
      .ok { Scheme := scheme, Host := host, Path := unescaped } := by
    simp only [buildUrl, hb, hexpand, url.Parse_plainPath unescaped hpath,
      url.ResolveReference_plain scheme host unescaped hpath]
  have hs : url.URL.String { Scheme := scheme, Host := host, Path := unescaped } =
      r.baseUrl ++ unescaped := by
    rw [url.String_plain scheme host unescaped hSne hhost hpath, hbase, plain_concat]
  refine ⟨⟨_, hu, hs⟩, ?_⟩
  have hne : r.verb ≠ [] := by
    intro h
    rw [h] at hverb
    simp [http.validMethod] at hverb
  have hparse : url.Parse (r.baseUrl ++ unescaped) =
      .ok { Scheme := scheme, Host := host, Path := unescaped } := by
    rw [hbase, plain_concat]
    exact url.Parse_plain scheme host unescaped hscheme hhost hpath
  have hreq : (http.NewRequestWithContext (some ctx) r.verb (r.baseUrl ++ unescaped) body :
      Except GoError (http.Request W B)) =
      .ok { ctx := ctx, Method := r.verb,
            URL := { Scheme := scheme, Host := host, Path := unescaped },
            Header := [], Body := body, GetBody := none, Host := host } := by
    simp only [http.NewRequestWithContext, if_neg hne, hverb, hparse,
      url.removeEmptyPort_plain host hhost]
    rfl
  have hbuild : r.build Expand (some ctx) w =
      (.ok (setHeaders r.headers
          { ctx := ctx, Method := r.verb,
            URL := { Scheme := scheme, Host := host, Path := unescaped },
            Header := [], Body := body, GetBody := r.bodyGetter, Host := host }),
        .buildUrl r.baseUrl r.path r.pathParams :: tb ++
          [.newRequest r.verb (r.baseUrl ++ unescaped) body], w') := by
    simp only [Request.build, hu, hbody, hs, hreq]
  refine ⟨_, _, hbuild, ?_⟩
  rw [setHeaders_URL]
  exact hs

end

/-- C1 on the test's case, base `https://www.bungie.net`, path
`/Platform/User/GetMembershipsForCurrentUser/`, no parameters, and on a base
with a port, `http://localhost:8080` with path `/v1/items`; the expander
returns a template without placeholders as it is. -/
theorem buildUrl_concatenates_plain_witness :
    (∃ u, buildUrl literalExpand "https://www.bungie.net".toList
          "/Platform/User/GetMembershipsForCurrentUser/".toList [] = .ok u ∧
      u.String = "https://www.bungie.net/Platform/User/GetMembershipsForCurrentUser/".toList) ∧
    (∃ (req : http.Request Unit Unit) (t : List (Event Unit Unit Unit)),
      ((Post "http://localhost:8080".toList : Request Unit Unit Unit).Path
          "/v1/items".toList []).build literalExpand (some 0) () = (.ok req, t, ()) ∧
        req.URL.String = "http://localhost:8080/v1/items".toList) :=
  ⟨(@buildUrl_concatenates_plain Unit Unit Unit literalExpand
      ((Get "https://www.bungie.net".toList).Path
        "/Platform/User/GetMembershipsForCurrentUser/".toList [])
      "https".toList "www.bungie.net".toList
      "/Platform/User/GetMembershipsForCurrentUser/".toList
      "/Platform/User/GetMembershipsForCurrentUser/".toList 0 () () none []
      rfl (by decide!) (by decide!) rfl (by decide!) (by decide!) rfl).1,
   (@buildUrl_concatenates_plain Unit Unit Unit literalExpand
      ((Post "http://localhost:8080".toList).Path "/v1/items".toList [])
      "http".toList "localhost:8080".toList "/v1/items".toList "/v1/items".toList 0 () () none []
      rfl (by decide!) (by decide!) rfl (by decide!) (by decide!) rfl).2⟩

/-- C1 fails. With an expander that returns a template without placeholders
as it is: a path in the base URL is replaced by an absolute template path, not
extended by it; a relative template path replaces the last element of the base
path; and a space in the expansion is escaped once more. -/
theorem buildUrl_not_concatenation :
    (buildUrl literalExpand "https://example.com/api".toList "/items".toList
          []).toOption.map url.URL.String = some "https://example.com/items".toList ∧
      "https://example.com/items".toList ≠ "https://example.com/api".toList ++ "/items".toList ∧
      (buildUrl literalExpand "https://example.com/v1/api".toList "items".toList
          []).toOption.map url.URL.String = some "https://example.com/v1/items".toList ∧
      (buildUrl literalExpand "https://example.com".toList "/a b".toList
          []).toOption.map url.URL.String = some "https://example.com/a%20b".toList := by
  decide!

/-- C9 on `Get("http://e.com").Path("/x").Body(body.Bytes("hi"))`, run on an
empty heap: the request built carries stream 0, the one the provider made. -/
theorem Body_changes_only_provider_witness :
    ((Get "http://e.com".toList : Request body.Heap body.Stream Unit).Body
        (some (body.Bytes "hi".toList))).verb = "GET".toList ∧
      ∃ req : http.Request body.Heap body.Stream,
        (((Get "http://e.com".toList : Request body.Heap body.Stream Unit).Path "/x".toList []).Body
            (some (body.Bytes "hi".toList))).build literalExpand (some 0) [] =
          (.ok req,
            [.buildUrl "http://e.com".toList "/x".toList [], .bodyGetter,
              .newRequest "GET".toList "http://e.com/x".toList (some 0)],
            [body.NewReader "hi".toList]) ∧
          req.Body = some 0 ∧ req.Method = "GET".toList := by
  have h := Body_changes_only_provider
    ((Get "http://e.com".toList : Request body.Heap body.Stream Unit).Path "/x".toList [])
    (body.Bytes "hi".toList) literalExpand 0 [] [body.NewReader "hi".toList]
    { Scheme := "http".toList, Host := "e.com".toList, Path := "/x".toList }
    { Scheme := "http".toList, Host := "e.com".toList, Path := "/x".toList } 0
    rfl rfl (by decide) rfl
  obtain ⟨-, hget, req, hb, h1, h2, -⟩ := h
  exact ⟨hget _, req, hb, h1, h2⟩

/-- C2 on a request with transport override 7 and no client set, where the
default client, object 0, has transport 3: after `Do`, object 0 is what it
was, transport 3 included. -/
theorem Do_transport_override_copies_client_witness :
    (((Get "http://e.com".toList : Request Unit Unit Nat).Transport (some 7)).Do
        ⟨literalExpand, 0, fun _ _ w => (.error (.external 1), w)⟩ (some 0)
        [⟨some 3, none, none, 30⟩] ()).clients.get? 0 = some ⟨some 3, none, none, 30⟩ := by
  have hok : ∃ req t, ((Get "http://e.com".toList : Request Unit Unit Nat).Transport (some 7)).build
      literalExpand (some 0) () = (.ok req, t, ()) := ⟨_, _, rfl⟩
  obtain ⟨req, t, hb⟩ := hok
  exact (Do_transport_override_copies_client
    ⟨literalExpand, 0, fun _ _ w => (.error (.external 1), w)⟩
    ((Get "http://e.com".toList : Request Unit Unit Nat).Transport (some 7)) (some 0)
    [⟨some 3, none, none, 30⟩] () () 7 req t ⟨some 3, none, none, 30⟩ rfl hb rfl).2.1

/-- C3 on a request whose base URL has a space in its host: `Do` returns the
parse error and calls nothing after `buildUrl`, although a body provider and
a handler are attached. -/
theorem Do_returns_first_failure_witness :
    ((((Get "http://a b".toList : Request Nat Unit Unit).Body
          (some fun w => (.ok (), w + 1))).ReplyHandler
          (some fun _ w => (.returned none, w + 1))).Do
        ⟨literalExpand, 0, fun _ _ w => (.error (.external 1), w + 1)⟩ (some 0)
        [⟨none, none, none, 0⟩] 5) =
      ⟨.returned (some (.urlParse "http://a b".toList "invalid character in host name  ".toList)),
        [.buildUrl "http://a b".toList [] []], [⟨none, none, none, 0⟩], 5⟩ :=
  (Do_returns_first_failure
    ⟨literalExpand, 0, fun _ _ w => (.error (.external 1), w + 1)⟩
    (((Get "http://a b".toList : Request Nat Unit Unit).Body
      (some fun w => (.ok (), w + 1))).ReplyHandler (some fun _ w => (.returned none, w + 1)))
    (some 0) [⟨none, none, none, 0⟩] 5).1 _ rfl

end RequestLib
